import Mathlib

/-!
# Verification of the URL extraction-and-indexing engine

This file gives a shallow embedding, over `List Char` and `List Nat`
(byte lists), of the Python script `scripts/extract_urls_from_dir.py`:

* the strict regex `(?:https?://|www\.)[^\s"\x27<>]+` and the lenient regex
  `(?:https?://|www\.|ftp://)?[A-Za-z0-9.-]+\.[A-Za-z]\x7b2,6\x7d(?:/[^\s"\x27<>]*)?`
  (both compiled with `re.IGNORECASE`), embedded as backtracking matchers
  with Python `re.findall` scanning semantics (leftmost, non-overlapping,
  greedy with backtracking, alternatives tried left to right);
* the occurrence index (an insertion-ordered dict mapping a URL to the set
  of files containing it), built with `occurrences.setdefault(u, set()).add(p)`;
* the two output shapes: the sorted unique-URL text output and the
  flattened JSON occurrence table produced by `json.dump(data, indent=2)`;
* the directory scan with its `.txt`-suffix filter, permissive UTF-8
  decoding (`errors="ignore"`), and per-file `OSError` recovery.

Text is modelled as `List Char` (Python `str`, a sequence of code points);
file bytes as `List Nat`.  Python `sorted` on code-point strings is modelled
by insertion sort under the boolean lexicographic order `lexLeB`.
-/

namespace UrlExtract

/-! ## Character classes of the two regexes -/

/-- Python regex `\s` on `str` (Unicode whitespace): the characters matched by
`\s` under `re.UNICODE`, by code point. -/
def pySpace (c : Char) : Bool :=
  decide (9 ≤ c.toNat ∧ c.toNat ≤ 13) || decide (28 ≤ c.toNat ∧ c.toNat ≤ 32) ||
  decide (c.toNat = 133) || decide (c.toNat = 160) || decide (c.toNat = 5760) ||
  decide (8192 ≤ c.toNat ∧ c.toNat ≤ 8202) || decide (c.toNat = 8232) ||
  decide (c.toNat = 8233) || decide (c.toNat = 8239) || decide (c.toNat = 8287) ||
  decide (c.toNat = 12288)

/-- The class `[^\s"\x27<>]` shared by the strict body and the lenient path:
any character except whitespace, double quote (34), single quote (39),
`<` (60) and `>` (62). -/
def isBodyChar (c : Char) : Bool :=
  !(pySpace c || decide (c.toNat = 34) || decide (c.toNat = 39) ||
    decide (c.toNat = 60) || decide (c.toNat = 62))

/-- The lenient domain class `[A-Za-z0-9.-]`. -/
def isDomChar (c : Char) : Bool :=
  decide (65 ≤ c.toNat ∧ c.toNat ≤ 90) || decide (97 ≤ c.toNat ∧ c.toNat ≤ 122) ||
  decide (48 ≤ c.toNat ∧ c.toNat ≤ 57) || decide (c.toNat = 46) || decide (c.toNat = 45)

/-- The class `[A-Za-z]` of the lenient top-level label. -/
def isAlphaAZ (c : Char) : Bool :=
  decide (65 ≤ c.toNat ∧ c.toNat ≤ 90) || decide (97 ≤ c.toNat ∧ c.toNat ≤ 122)

/-! ## Scheme alternatives

`re.IGNORECASE` case folding is modelled per character with `Char.toLower`
(exact on the ASCII letters occurring in the scheme literals). -/

/-- Strips the literal pattern `p` (given in lowercase) from the front of `l`,
case-insensitively, returning the remainder. -/
def stripCI : List Char → List Char → Option (List Char)
  | [], l => some l
  | _ :: _, [] => none
  | p :: ps, c :: cs => if c.toLower == p then stripCI ps cs else none

/-- The alternative `https://` of `https?://` (greedy `s?` tries it first). -/
def strHttps : List Char := "https://".data

/-- The alternative `http://` of `https?://`. -/
def strHttp : List Char := "http://".data

/-- The alternative `www\.`. -/
def strWww : List Char := "www.".data

/-- The alternative `ftp://` (lenient scheme only). -/
def strFtp : List Char := "ftp://".data

/-! ## The strict matcher `URL_REGEX` -/

/-- Tries the strict scheme alternatives in regex order; on a successful
scheme the body `[^\s"\x27<>]+` is the maximal run of body characters, which
must be non-empty.  Returns the total match length. -/
def strictTry : List (List Char) → List Char → Option Nat
  | [], _ => none
  | s :: ss, l =>
    match stripCI s l with
    | some r =>
      if (r.takeWhile isBodyChar).length = 0 then strictTry ss l
      else some (s.length + (r.takeWhile isBodyChar).length)
    | none => strictTry ss l

/-- Attempts a strict match anchored at the front of `l`
(`URL_REGEX = (?:https?://|www\.)[^\s"\x27<>]+`). -/
def strictMatchAt (l : List Char) : Option Nat :=
  strictTry [strHttps, strHttp, strWww] l

/-! ## The lenient matcher `LENIENT_URL_REGEX` -/

/-- Length matched by the optional path `(?:/[^\s"\x27<>]*)?`: a `/` followed
by the maximal run of body characters, or nothing. -/
def pathLen : List Char → Nat
  | [] => 0
  | c :: tl => if c == '/' then 1 + (tl.takeWhile isBodyChar).length else 0

/-- Attempts the split of `[A-Za-z0-9.-]+\.[A-Za-z]\x7b2,6\x7d` that gives the
`+` exactly `k` characters: the next character must be a dot, then the greedy
`[A-Za-z]\x7b2,6\x7d` takes `min 6` of the following alpha run and needs at
least 2; the optional path follows.  Returns the body match length. -/
def tldSplit (k : Nat) (rest : List Char) : Option Nat :=
  match rest.drop k with
  | '.' :: tl =>
    if 2 ≤ min (tl.takeWhile isAlphaAZ).length 6 then
      some (k + 1 + min (tl.takeWhile isAlphaAZ).length 6 +
            pathLen (tl.drop (min (tl.takeWhile isAlphaAZ).length 6)))
    else none
  | _ => none

/-- Greedy backtracking of `[A-Za-z0-9.-]+`: try the split at `k`, then
`k - 1`, ..., down to 1. -/
def domBacktrack (rest : List Char) : Nat → Option Nat
  | 0 => none
  | k + 1 =>
    match tldSplit (k + 1) rest with
    | some n => some n
    | none => domBacktrack rest k

/-- Matches `[A-Za-z0-9.-]+\.[A-Za-z]\x7b2,6\x7d(?:/[^\s"\x27<>]*)?` anchored
at the front of `rest`, starting the backtracking from the maximal run of
domain characters. -/
def lenientBody (rest : List Char) : Option Nat :=
  domBacktrack rest (rest.takeWhile isDomChar).length

/-- Tries the lenient scheme alternatives in regex order; since the whole
scheme group is an optional `(?:...)?`, the empty alternative is tried last:
when a scheme matches but the body fails, the matcher backtracks into the
next alternative. -/
def lenientTry : List (List Char) → List Char → Option Nat
  | [], l => lenientBody l
  | s :: ss, l =>
    match stripCI s l with
    | some r =>
      match lenientBody r with
      | some n => some (s.length + n)
      | none => lenientTry ss l
    | none => lenientTry ss l

/-- Attempts a lenient match anchored at the front of `l`
(`LENIENT_URL_REGEX`). -/
def lenientMatchAt (l : List Char) : Option Nat :=
  lenientTry [strHttps, strHttp, strWww, strFtp] l

/-! ## `re.findall` scanning -/

/-- `re.findall` semantics: scan left to right; at each position attempt an
anchored match; on success emit the matched substring and resume after it,
otherwise advance one character.  Both matchers only produce matches of
length at least 1, so fuel `l.length` (supplied by the wrappers) never runs
out. -/
def scanAux (matchAt : List Char → Option Nat) : Nat → List Char → List (List Char)
  | 0, _ => []
  | _, [] => []
  | fuel + 1, c :: rest =>
    match matchAt (c :: rest) with
    | some n => (c :: rest).take n :: scanAux matchAt fuel ((c :: rest).drop n)
    | none => scanAux matchAt fuel rest

/-- `URL_REGEX.findall(text)`. -/
def strictFindall (l : List Char) : List (List Char) :=
  scanAux strictMatchAt l.length l

/-- `LENIENT_URL_REGEX.findall(text)`. -/
def lenientFindall (l : List Char) : List (List Char) :=
  scanAux lenientMatchAt l.length l

/-- `regex.findall(content)` with `regex` chosen by the `use_lenient` flag. -/
def findUrls (lenient : Bool) (content : List Char) : List (List Char) :=
  if lenient then lenientFindall content else strictFindall content

/-! ## The occurrence index

`occurrences` is a Python dict, iterated in key-insertion order, mapping a
URL string to a `set` of file paths.  It is modelled as an association list
in insertion order whose value lists have set semantics (membership only;
the set is consumed exclusively through `sorted`, `len` and union). -/

/-- One step of `occurrences.setdefault(u, set()).add(f)`: add `f` to the
set of the entry for `u`, appending a fresh entry at the end when `u` is not
yet a key. -/
def indexInsert : List (List Char × List (List Char)) → List Char → List Char →
    List (List Char × List (List Char))
  | [], u, f => [(u, [f])]
  | (v, fs) :: t, u, f =>
    if v = u then (v, if f ∈ fs then fs else fs ++ [f]) :: t
    else (v, fs) :: indexInsert t u f

/-- The inner loop `for u in found_urls: occurrences.setdefault(u, set()).add(file_path)`
for one file's content. -/
def processFile (idx : List (List Char × List (List Char))) (fileId content : List Char)
    (lenient : Bool) : List (List Char × List (List Char)) :=
  (findUrls lenient content).foldl (fun i u => indexInsert i u fileId) idx

/-- The whole accumulation over a sequence of (file identifier, content)
pairs, in processing order, starting from the empty dict. -/
def buildIndex (pairs : List (List Char × List Char)) (lenient : Bool) :
    List (List Char × List (List Char)) :=
  pairs.foldl (fun i p => processFile i p.1 p.2 lenient) []

/-- The key sequence of the dict, in insertion order. -/
def keys (idx : List (List Char × List (List Char))) : List (List Char) :=
  idx.map Prod.fst

/-- Lookup of the file set of a URL key (empty list when absent). -/
def getFiles : List (List Char × List (List Char)) → List Char → List (List Char)
  | [], _ => []
  | (v, fs) :: t, u => if v = u then fs else getFiles t u

/-! ## Python `sorted` on strings

Python compares `str` values lexicographically by code point.  `sorted`
returns the unique ascending reordering (the inputs sorted here are sets or
dict keys, hence duplicate-free, so stability is irrelevant). -/

/-- Code-point lexicographic `a <= b` on strings, as a boolean. -/
def lexLeB : List Char → List Char → Bool
  | [], _ => true
  | _ :: _, [] => false
  | a :: as, b :: bs =>
    if a.toNat < b.toNat then true
    else if b.toNat < a.toNat then false
    else lexLeB as bs

/-- Code-point lexicographic `a < b` on strings, as a boolean. -/
def lexLtB : List Char → List Char → Bool
  | [], [] => false
  | [], _ :: _ => true
  | _ :: _, [] => false
  | a :: as, b :: bs =>
    if a.toNat < b.toNat then true
    else if b.toNat < a.toNat then false
    else lexLtB as bs

/-- The order `a <= b` on strings as a proposition. -/
def clLe (a b : List Char) : Prop := lexLeB a b = true

/-- The strict order `a < b` on strings as a proposition. -/
def clLt (a b : List Char) : Prop := lexLtB a b = true

instance : DecidableRel clLe := fun a b => inferInstanceAs (Decidable (lexLeB a b = true))

instance : DecidableRel clLt := fun a b => inferInstanceAs (Decidable (lexLtB a b = true))

/-- `sorted(strings)` (ascending code-point order). -/
def sortCL (l : List (List Char)) : List (List Char) :=
  List.insertionSort clLe l

/-! ## Output shapes -/

/-- The occurrence-table record list: `for url, files in occurrences.items():
for f in sorted(files): data.append(dict(url=url, file=f))`.  Dict items are
iterated in insertion order. -/
def jsonRecords (idx : List (List Char × List (List Char))) : List (List Char × List Char) :=
  idx.flatMap fun e => (sortCL e.2).map fun f => (e.1, f)

/-- `len(data)`, the reported occurrence count of the JSON shape. -/
def recordCount (idx : List (List Char × List (List Char))) : Nat :=
  (jsonRecords idx).length

/-- `sorted(occurrences.keys())`, the lines of the unique-list shape. -/
def uniqueLines (idx : List (List Char × List (List Char))) : List (List Char) :=
  sortCL (keys idx)

/-- The unique-list output text: each sorted key written as `url + "\n"`. -/
def uniqueOutput (idx : List (List Char × List (List Char))) : List Char :=
  ((uniqueLines idx).map fun u => u ++ "\n".data).flatten

/-- `len(occurrences)`, the reported count of the unique-list shape. -/
def uniqueCount (idx : List (List Char × List (List Char))) : Nat :=
  (keys idx).length

/-- JSON string escaping of one character as performed by `json.dump` with
`ensure_ascii=False`: only the quote, the backslash and control characters
are escaped; everything else is emitted literally. -/
def jsonEscapeChar (c : Char) : List Char :=
  if c = '"' then ['\\', '"']
  else if c = '\\' then ['\\', '\\']
  else if c = '\n' then ['\\', 'n']
  else if c = '\r' then ['\\', 'r']
  else if c = '\t' then ['\\', 't']
  else if c.toNat = 8 then ['\\', 'b']
  else if c.toNat = 12 then ['\\', 'f']
  else if c.toNat < 32 then
    ['\\', 'u', '0', '0',
     Char.ofNat (if c.toNat / 16 < 10 then 48 + c.toNat / 16 else 87 + c.toNat / 16),
     Char.ofNat (if c.toNat % 16 < 10 then 48 + c.toNat % 16 else 87 + c.toNat % 16)]
  else [c]

/-- A JSON string literal for `s`. -/
def jsonQuote (s : List Char) : List Char :=
  '"' :: (s.map jsonEscapeChar).flatten ++ ['"']

/-- One `\x7b"url": ..., "file": ...\x7d` object as laid out by
`json.dump(..., indent=2)` at nesting depth 1. -/
def jsonObject (r : List Char × List Char) : List Char :=
  "  \x7b\n    \"url\": ".data ++ jsonQuote r.1 ++ ",\n    \"file\": ".data ++
    jsonQuote r.2 ++ "\n  \x7d".data

/-- The byte-for-byte JSON output of `json.dump(data, out, ensure_ascii=False,
indent=2)` for the record list of the index (`[]` when there are no
records). -/
def jsonOutput (idx : List (List Char × List (List Char))) : List Char :=
  if jsonRecords idx = [] then "[]".data
  else "[\n".data ++
    (List.intersperse ",\n".data ((jsonRecords idx).map jsonObject)).flatten ++
    "\n]".data

/-! ## The directory scan -/

/-- One directory entry as seen by the scan: its file name and either its
byte content or `none` when opening/reading it raises `OSError`. -/
structure DirEntry where
  name : List Char
  bytes : Option (List Nat)

/-- `os.path.join(input_dir, filename)` for a directory path without a
trailing separator. -/
def joinPath (dir nm : List Char) : List Char := dir ++ "/".data ++ nm

/-- Is `b2` a UTF-8 continuation byte? -/
def contByte (b : Nat) : Bool := decide (128 ≤ b ∧ b ≤ 191)

/-- UTF-8 decoding with `errors="ignore"` (CPython): a malformed sequence --
the longest valid prefix of a multi-byte sequence followed by an unexpected
byte, an overlong or surrogate encoding, or a stray byte -- is dropped and
decoding resumes at the next byte; a truncated sequence at end of input is
dropped.  Fuel decreases by one while at least one byte is consumed per
step, so `fuel = length` (supplied by the wrapper) suffices. -/
def utf8DecodeAux : Nat → List Nat → List Char
  | 0, _ => []
  | _, [] => []
  | fuel + 1, b :: rest =>
    if b < 128 then Char.ofNat b :: utf8DecodeAux fuel rest
    else if b < 194 then utf8DecodeAux fuel rest
    else if b < 224 then
      match rest with
      | [] => []
      | b2 :: r2 =>
        if contByte b2 then Char.ofNat ((b - 192) * 64 + (b2 - 128)) :: utf8DecodeAux fuel r2
        else utf8DecodeAux fuel (b2 :: r2)
    else if b < 240 then
      match rest with
      | [] => []
      | b2 :: r2 =>
        if (if b = 224 then decide (160 ≤ b2 ∧ b2 ≤ 191)
            else if b = 237 then decide (128 ≤ b2 ∧ b2 ≤ 159)
            else contByte b2) then
          match r2 with
          | [] => []
          | b3 :: r3 =>
            if contByte b3 then
              Char.ofNat ((b - 224) * 4096 + (b2 - 128) * 64 + (b3 - 128)) ::
                utf8DecodeAux fuel r3
            else utf8DecodeAux fuel (b3 :: r3)
        else utf8DecodeAux fuel (b2 :: r2)
    else if b < 245 then
      match rest with
      | [] => []
      | b2 :: r2 =>
        if (if b = 240 then decide (144 ≤ b2 ∧ b2 ≤ 191)
            else if b = 244 then decide (128 ≤ b2 ∧ b2 ≤ 143)
            else contByte b2) then
          match r2 with
          | [] => []
          | b3 :: r3 =>
            if contByte b3 then
              match r3 with
              | [] => []
              | b4 :: r4 =>
                if contByte b4 then
                  Char.ofNat ((b - 240) * 262144 + (b2 - 128) * 4096 + (b3 - 128) * 64 +
                      (b4 - 128)) :: utf8DecodeAux fuel r4
                else utf8DecodeAux fuel (b4 :: r4)
            else utf8DecodeAux fuel (b3 :: r3)
        else utf8DecodeAux fuel (b2 :: r2)
    else utf8DecodeAux fuel rest

/-- `open(path, "r", encoding="utf-8", errors="ignore").read()` on the raw
bytes of the file. -/
def utf8DecodeIgnore (bs : List Nat) : List Char := utf8DecodeAux bs.length bs

/-- Case-insensitive suffix test `s.lower().endswith(suffix)`: Python
`str.lower` maps each character to lowercase (modelled per character with
`Char.toLower`, exact on ASCII). -/
def lowerEndsWith (s suffix0 : List Char) : Bool :=
  decide (suffix0.length ≤ s.length) &&
    (s.map Char.toLower).drop (s.length - suffix0.length) == suffix0

/-- `filename.lower().endswith(".txt")`, the scan filter. -/
def isTxtName (nm : List Char) : Bool := lowerEndsWith nm ".txt".data

/-- `output_file.lower().endswith(".json")`, the output-shape dispatch. -/
def selectJson (nm : List Char) : Bool := lowerEndsWith nm ".json".data

/-- One iteration of the scan loop over `os.listdir(input_dir)`: non-`.txt`
names are skipped; a readable `.txt` file is decoded and indexed; an
unreadable one only appends a diagnostic (`print("Could not read ...")`) and
leaves the index unchanged. -/
def scanStep (lenient : Bool) (dir : List Char)
    (acc : List (List Char × List (List Char)) × List (List Char)) (e : DirEntry) :
    List (List Char × List (List Char)) × List (List Char) :=
  if isTxtName e.name then
    match e.bytes with
    | some bs => (processFile acc.1 (joinPath dir e.name) (utf8DecodeIgnore bs) lenient, acc.2)
    | none => (acc.1, acc.2 ++ [joinPath dir e.name])
  else acc

/-- The whole scan loop of `extract_urls_from_directory`: returns the final
occurrence index together with the list of file paths reported as
unreadable, in directory-listing order. -/
def scanDirectory (dir : List Char) (entries : List DirEntry) (lenient : Bool) :
    List (List Char × List (List Char)) × List (List Char) :=
  entries.foldl (scanStep lenient dir) ([], [])

/-- The output written for the index, dispatched on the output file name:
a `.json` name (case-insensitively) selects the occurrence table, everything
else the unique-URL list. -/
def outputFor (idx : List (List Char × List (List Char))) (outName : List Char) : List Char :=
  if selectJson outName then jsonOutput idx else uniqueOutput idx

/-! ## Derived views of the scan used to state the error-handling claims -/

/-- The (file identifier, decoded content) pairs of the `.txt` entries the
scan can actually read, in listing order. -/
def readableTxtPairs (dir : List Char) (entries : List DirEntry) :
    List (List Char × List Char) :=
  entries.filterMap fun e =>
    match e.bytes with
    | some bs => if isTxtName e.name then some (joinPath dir e.name, utf8DecodeIgnore bs) else none
    | none => none

/-- The file paths of the `.txt` entries whose read raises `OSError`, in
listing order. -/
def unreadableTxtPaths (dir : List Char) (entries : List DirEntry) : List (List Char) :=
  entries.filterMap fun e =>
    match e.bytes with
    | some _ => none
    | none => if isTxtName e.name then some (joinPath dir e.name) else none

/-- The (url, file) ordering asserted by the specification for the
occurrence table: URL ascending, then file ascending within a URL. -/
def recordLe (r1 r2 : List Char × List Char) : Prop :=
  clLt r1.1 r2.1 ∨ (r1.1 = r2.1 ∧ clLe r1.2 r2.2)

instance : DecidableRel recordLe := fun r1 r2 =>
  inferInstanceAs (Decidable (clLt r1.1 r2.1 ∨ (r1.1 = r2.1 ∧ clLe r1.2 r2.2)))

/-! ## The match shape claimed by the specification

The following definitions transcribe the specification's description of a
lenient match (optional scheme; one or more labels of letters, digits and
hyphens, each followed by a dot; a final top-level label of 2 to 6 letters;
an optional path), to be compared against what the code's pattern accepts. -/

/-- Splits a string at every dot (a trailing dot yields a trailing empty
part). -/
def splitDots : List Char → List (List Char)
  | [] => [[]]
  | c :: t =>
    if c = '.' then [] :: splitDots t
    else
      match splitDots t with
      | h :: r => (c :: h) :: r
      | [] => [[c]]

/-- A non-empty label of letters, digits and hyphens, per the specification
wording. -/
def specLabelOK (l : List Char) : Bool :=
  !l.isEmpty && l.all fun c =>
    isAlphaAZ c || decide (48 ≤ c.toNat ∧ c.toNat ≤ 57) || decide (c.toNat = 45)

/-- The specification's domain shape: one or more labels each followed by a
dot, then a final top-level label of 2 to 6 letters. -/
def specDomainOK (d : List Char) : Bool :=
  decide (2 ≤ (splitDots d).length) && (splitDots d).dropLast.all specLabelOK &&
    (match (splitDots d).getLast? with
     | some tld => decide (2 ≤ tld.length ∧ tld.length ≤ 6) && tld.all isAlphaAZ
     | none => false)

/-- The specification's body shape after the optional scheme: the domain up
to the first slash, then an optional path over the excluded-character
set. -/
def specBodyOK (r : List Char) : Bool :=
  specDomainOK (r.takeWhile fun c => !(c == '/')) &&
    ((r.drop (r.takeWhile fun c => !(c == '/')).length).isEmpty ||
      (r.drop (r.takeWhile fun c => !(c == '/')).length).all isBodyChar)

/-- The whole lenient match shape described by the specification: an
optional case-insensitive scheme, then the domain and optional path. -/
def specLenientShape (m : List Char) : Bool :=
  specBodyOK m ||
    [strHttps, strHttp, strWww, strFtp].any fun sp =>
      match stripCI sp m with
      | some r => specBodyOK r
      | none => false

/-! ## Character-class facts -/

theorem isBodyChar_of_isDomChar {c : Char} (h : isDomChar c = true) : isBodyChar c = true := by
  simp only [isDomChar, isBodyChar, pySpace, Bool.or_eq_true, decide_eq_true_eq,
    Bool.not_eq_true', Bool.or_eq_false_iff, decide_eq_false_iff_not] at h ⊢
  omega

theorem isDomChar_of_isAlphaAZ {c : Char} (h : isAlphaAZ c = true) : isDomChar c = true := by
  simp only [isAlphaAZ, isDomChar, Bool.or_eq_true, decide_eq_true_eq] at h ⊢
  omega

theorem isAlphaAZ_ne_dot {c : Char} (h : isAlphaAZ c = true) : c ≠ '.' :=
  fun hc => absurd (hc ▸ h) (by decide)

theorem isDomChar_dot : isDomChar '.' = true := by decide

theorem not_isDomChar_slash : isDomChar '/' = false := by decide

theorem isBodyChar_slash : isBodyChar '/' = true := by decide

theorem not_isAlphaAZ_slash : isAlphaAZ '/' = false := by decide

/-! ## The code-point order: a linear order -/

theorem char_toNat_inj {a b : Char} (h : a.toNat = b.toNat) : a = b :=
  Char.ext (UInt32.ext h)

theorem lexLeB_cons_iff {a b : Char} {as bs : List Char} :
    lexLeB (a :: as) (b :: bs) = true ↔
      a.toNat < b.toNat ∨ (a = b ∧ lexLeB as bs = true) := by
  simp only [lexLeB]
  split_ifs with h1 h2
  · simp [h1]
  · constructor
    · intro h; cases h
    · rintro (h | ⟨rfl, _⟩) <;> omega
  · have : a = b := char_toNat_inj (by omega)
    subst this
    simp

theorem lexLtB_cons_iff {a b : Char} {as bs : List Char} :
    lexLtB (a :: as) (b :: bs) = true ↔
      a.toNat < b.toNat ∨ (a = b ∧ lexLtB as bs = true) := by
  simp only [lexLtB]
  split_ifs with h1 h2
  · simp [h1]
  · constructor
    · intro h; cases h
    · rintro (h | ⟨rfl, _⟩) <;> omega
  · have : a = b := char_toNat_inj (by omega)
    subst this
    simp

theorem lexLeB_total : ∀ a b, lexLeB a b = true ∨ lexLeB b a = true
  | [], _ => by left; rfl
  | _ :: _, [] => by right; rfl
  | a :: as, b :: bs => by
    rw [lexLeB_cons_iff, lexLeB_cons_iff]
    rcases Nat.lt_trichotomy a.toNat b.toNat with h | h | h
    · exact Or.inl (Or.inl h)
    · have hab : a = b := char_toNat_inj h
      subst hab
      rcases lexLeB_total as bs with ih | ih
      · exact Or.inl (Or.inr ⟨rfl, ih⟩)
      · exact Or.inr (Or.inr ⟨rfl, ih⟩)
    · exact Or.inr (Or.inl h)

theorem lexLeB_antisymm : ∀ a b, lexLeB a b = true → lexLeB b a = true → a = b
  | [], [], _, _ => rfl
  | [], _ :: _, _, h => by simp [lexLeB] at h
  | _ :: _, [], h, _ => by simp [lexLeB] at h
  | a :: as, b :: bs, h1, h2 => by
    rw [lexLeB_cons_iff] at h1 h2
    rcases h1 with h1 | ⟨rfl, h1⟩
    · rcases h2 with h2 | ⟨rfl, _⟩ <;> omega
    · rcases h2 with h2 | ⟨_, h2⟩
      · omega
      · rw [lexLeB_antisymm as bs h1 h2]

theorem lexLeB_trans : ∀ a b c, lexLeB a b = true → lexLeB b c = true → lexLeB a c = true
  | [], _, _, _, _ => rfl
  | _ :: _, [], _, h, _ => by simp [lexLeB] at h
  | _ :: _, _ :: _, [], _, h => by simp [lexLeB] at h
  | a :: as, b :: bs, c :: cs, h1, h2 => by
    rw [lexLeB_cons_iff] at h1 h2 ⊢
    rcases h1 with h1 | ⟨rfl, h1⟩
    · rcases h2 with h2 | ⟨rfl, _⟩
      · exact Or.inl (Nat.lt_trans h1 h2)
      · exact Or.inl h1
    · rcases h2 with h2 | ⟨rfl, h2⟩
      · exact Or.inl h2
      · exact Or.inr ⟨rfl, lexLeB_trans as bs cs h1 h2⟩

theorem lexLtB_iff_le_ne : ∀ a b, lexLtB a b = true ↔ lexLeB a b = true ∧ a ≠ b
  | [], [] => by simp [lexLtB, lexLeB]
  | [], _ :: _ => by simp [lexLtB, lexLeB]
  | _ :: _, [] => by simp [lexLtB, lexLeB]
  | a :: as, b :: bs => by
    rw [lexLtB_cons_iff, lexLeB_cons_iff]
    constructor
    · rintro (h | ⟨rfl, h⟩)
      · refine ⟨Or.inl h, fun hc => ?_⟩
        have : a = b := (List.cons.injEq .. ▸ hc).1
        subst this
        omega
      · have := (lexLtB_iff_le_ne as bs).1 h
        exact ⟨Or.inr ⟨rfl, this.1⟩, by simpa using this.2⟩
    · rintro ⟨h | ⟨rfl, h⟩, hne⟩
      · exact Or.inl h
      · refine Or.inr ⟨rfl, (lexLtB_iff_le_ne as bs).2 ⟨h, by simpa using hne⟩⟩

instance : IsTotal (List Char) clLe := ⟨fun a b => lexLeB_total a b⟩

instance : IsTrans (List Char) clLe := ⟨fun a b c => lexLeB_trans a b c⟩

instance : IsAntisymm (List Char) clLe := ⟨fun a b => lexLeB_antisymm a b⟩

theorem clLt_of_clLe_ne {a b : List Char} (h1 : clLe a b) (h2 : a ≠ b) : clLt a b :=
  (lexLtB_iff_le_ne a b).2 ⟨h1, h2⟩

/-! ## Facts about `sortCL` -/

theorem sortCL_sorted (l : List (List Char)) : List.Sorted clLe (sortCL l) :=
  List.sorted_insertionSort clLe l

theorem sortCL_perm (l : List (List Char)) : (sortCL l).Perm l :=
  List.perm_insertionSort clLe l

theorem mem_sortCL {a : List Char} {l : List (List Char)} : a ∈ sortCL l ↔ a ∈ l :=
  (sortCL_perm l).mem_iff

theorem sortCL_nodup {l : List (List Char)} (h : l.Nodup) : (sortCL l).Nodup :=
  (sortCL_perm l).nodup_iff.mpr h

theorem sortCL_length (l : List (List Char)) : (sortCL l).length = l.length :=
  (sortCL_perm l).length_eq

theorem sortCL_sorted_lt {l : List (List Char)} (h : l.Nodup) :
    List.Sorted clLt (sortCL l) := by
  have hps := (sortCL_sorted l).and ((sortCL_nodup h) : List.Pairwise (· ≠ ·) (sortCL l))
  exact hps.imp fun hab => clLt_of_clLe_ne hab.1 hab.2

theorem sortCL_eq_of_perm {l₁ l₂ : List (List Char)} (h : l₁.Perm l₂) :
    sortCL l₁ = sortCL l₂ :=
  List.eq_of_perm_of_sorted (((sortCL_perm l₁).trans h).trans (sortCL_perm l₂).symm)
    (sortCL_sorted l₁) (sortCL_sorted l₂)

/-! ## Facts about `indexInsert` -/

theorem mem_keys_indexInsert {idx : List (List Char × List (List Char))} {u f v : List Char} :
    v ∈ keys (indexInsert idx u f) ↔ v ∈ keys idx ∨ v = u := by
  induction idx with
  | nil => simp [indexInsert, keys, eq_comm]
  | cons e t ih =>
    obtain ⟨w, fs⟩ := e
    by_cases hw : w = u
    · subst hw
      rw [show indexInsert ((w, fs) :: t) w f = (w, if f ∈ fs then fs else fs ++ [f]) :: t
        from by simp [indexInsert]]
      simp only [keys, List.map_cons, List.mem_cons]
      tauto
    · simp only [indexInsert, if_neg hw, keys, List.map_cons, List.mem_cons]
      rw [show List.map Prod.fst (indexInsert t u f) = keys (indexInsert t u f) from rfl, ih]
      rw [show List.map Prod.fst t = keys t from rfl]
      tauto

theorem getFiles_indexInsert (idx : List (List Char × List (List Char))) (u f v : List Char) :
    getFiles (indexInsert idx u f) v =
      if v = u then (if f ∈ getFiles idx u then getFiles idx u else getFiles idx u ++ [f])
      else getFiles idx v := by
  induction idx with
  | nil =>
    by_cases hv : v = u
    · subst hv
      simp [indexInsert, getFiles]
    · simp [indexInsert, getFiles, hv, Ne.symm hv]
  | cons e t ih =>
    obtain ⟨w, fs⟩ := e
    by_cases hw : w = u
    · subst hw
      by_cases hv : v = w
      · subst hv
        simp [indexInsert, getFiles]
      · simp [indexInsert, getFiles, hv, Ne.symm hv]
    · simp only [indexInsert, if_neg hw]
      by_cases hv : v = w
      · subst hv
        simp [getFiles, hw]
      · simp only [getFiles, if_neg (Ne.symm hv)]
        rw [ih]
        simp [getFiles, hw, Ne.symm hv]

theorem keys_nodup_indexInsert {idx : List (List Char × List (List Char))} {u f : List Char}
    (h : (keys idx).Nodup) : (keys (indexInsert idx u f)).Nodup := by
  induction idx with
  | nil => simp [indexInsert, keys]
  | cons e t ih =>
    obtain ⟨w, fs⟩ := e
    simp only [keys, List.map_cons, List.nodup_cons] at h
    by_cases hw : w = u
    · subst hw
      rw [show indexInsert ((w, fs) :: t) w f = (w, if f ∈ fs then fs else fs ++ [f]) :: t
        from by simp [indexInsert]]
      simp only [keys, List.map_cons, List.nodup_cons]
      exact h
    · simp only [indexInsert, if_neg hw, keys, List.map_cons, List.nodup_cons]
      refine ⟨fun hmem => ?_, ih h.2⟩
      rw [show List.map Prod.fst (indexInsert t u f) = keys (indexInsert t u f) from rfl,
        mem_keys_indexInsert] at hmem
      rcases hmem with hmem | hmem
      · exact h.1 hmem
      · exact hw hmem

theorem entries_indexInsert {idx : List (List Char × List (List Char))} {u f : List Char}
    (h : ∀ e ∈ idx, e.2 ≠ [] ∧ e.2.Nodup) :
    ∀ e ∈ indexInsert idx u f, e.2 ≠ [] ∧ e.2.Nodup := by
  induction idx with
  | nil =>
    intro e he
    simp only [indexInsert, List.mem_singleton] at he
    subst he
    exact ⟨by simp, by simp⟩
  | cons e0 t ih =>
    obtain ⟨w, fs⟩ := e0
    have hhead := h (w, fs) (by simp)
    have htail : ∀ e ∈ t, e.2 ≠ [] ∧ e.2.Nodup := fun e he => h e (by simp [he])
    intro e he
    simp only [indexInsert] at he
    by_cases hw : w = u
    · rw [if_pos hw] at he
      rcases List.mem_cons.1 he with rfl | he2
      · by_cases hf : f ∈ fs
        · simpa [hf] using hhead
        · simp only [if_neg hf]
          refine ⟨by simp, ?_⟩
          refine hhead.2.append (by simp) ?_
          intro a ha hb
          rw [List.mem_singleton] at hb
          exact hf (hb ▸ ha)
      · exact htail e he2
    · rw [if_neg hw] at he
      rcases List.mem_cons.1 he with rfl | he2
      · exact hhead
      · exact ih htail e he2

/-! ## Facts about the accumulation folds -/

theorem mem_keys_urlFold (urls : List (List Char)) (fileId : List Char)
    (idx : List (List Char × List (List Char))) (v : List Char) :
    v ∈ keys (urls.foldl (fun i u => indexInsert i u fileId) idx) ↔
      v ∈ keys idx ∨ v ∈ urls := by
  induction urls generalizing idx with
  | nil => simp
  | cons u us ih =>
    simp only [List.foldl_cons, ih, mem_keys_indexInsert, List.mem_cons]
    tauto

theorem mem_getFiles_urlFold :
    ∀ (urls : List (List Char)) (fileId : List Char) idx (v g : List Char),
    g ∈ getFiles (urls.foldl (fun i u => indexInsert i u fileId) idx) v ↔
      g ∈ getFiles idx v ∨ (v ∈ urls ∧ g = fileId)
  | [], fileId, idx, v, g => by simp
  | u :: us, fileId, idx, v, g => by
    simp only [List.foldl_cons, mem_getFiles_urlFold us fileId _ v g, List.mem_cons]
    rw [getFiles_indexInsert]
    by_cases hv : v = u
    · subst hv
      rw [if_pos rfl]
      by_cases hf : fileId ∈ getFiles idx v
      · rw [if_pos hf]
        constructor
        · rintro (hg | ⟨_, rfl⟩)
          · exact Or.inl hg
          · exact Or.inl hf
        · rintro (hg | ⟨_, rfl⟩)
          · exact Or.inl hg
          · exact Or.inl hf
      · rw [if_neg hf]
        simp only [List.mem_append, List.mem_singleton]
        constructor
        · rintro ((hg | rfl) | ⟨_, rfl⟩)
          · exact Or.inl hg
          · exact Or.inr ⟨Or.inl trivial, rfl⟩
          · exact Or.inr ⟨Or.inl trivial, rfl⟩
        · rintro (hg | ⟨_, rfl⟩)
          · exact Or.inl (Or.inl hg)
          · exact Or.inl (Or.inr rfl)
    · rw [if_neg hv]
      constructor
      · rintro (hg | ⟨hus, rfl⟩)
        · exact Or.inl hg
        · exact Or.inr ⟨Or.inr hus, rfl⟩
      · rintro (hg | ⟨hu | hus, rfl⟩)
        · exact Or.inl hg
        · exact absurd hu hv
        · exact Or.inr ⟨hus, rfl⟩

theorem keys_nodup_urlFold (urls : List (List Char)) (fileId : List Char)
    (idx : List (List Char × List (List Char))) (h : (keys idx).Nodup) :
    (keys (urls.foldl (fun i u => indexInsert i u fileId) idx)).Nodup := by
  induction urls generalizing idx with
  | nil => exact h
  | cons u us ih => exact ih _ (keys_nodup_indexInsert h)

theorem entries_urlFold (urls : List (List Char)) (fileId : List Char)
    (idx : List (List Char × List (List Char))) (h : ∀ e ∈ idx, e.2 ≠ [] ∧ e.2.Nodup) :
    ∀ e ∈ urls.foldl (fun i u => indexInsert i u fileId) idx, e.2 ≠ [] ∧ e.2.Nodup := by
  induction urls generalizing idx with
  | nil => exact h
  | cons u us ih => exact ih _ (entries_indexInsert h)

theorem mem_keys_pairFold (lenient : Bool) :
    ∀ (ps : List (List Char × List Char)) idx (v : List Char),
    v ∈ keys (ps.foldl (fun i p => processFile i p.1 p.2 lenient) idx) ↔
      v ∈ keys idx ∨ ∃ p ∈ ps, v ∈ findUrls lenient p.2
  | [], idx, v => by simp
  | p :: ps, idx, v => by
    rw [List.foldl_cons, mem_keys_pairFold lenient ps _ v,
      show processFile idx p.1 p.2 lenient =
        (findUrls lenient p.2).foldl (fun i u => indexInsert i u p.1) idx from rfl,
      mem_keys_urlFold]
    simp only [List.mem_cons]
    constructor
    · rintro ((h | h) | ⟨q, hq, hv⟩)
      · exact Or.inl h
      · exact Or.inr ⟨p, Or.inl rfl, h⟩
      · exact Or.inr ⟨q, Or.inr hq, hv⟩
    · rintro (h | ⟨q, rfl | hq, hv⟩)
      · exact Or.inl (Or.inl h)
      · exact Or.inl (Or.inr hv)
      · exact Or.inr ⟨q, hq, hv⟩

theorem mem_getFiles_pairFold (lenient : Bool) :
    ∀ (ps : List (List Char × List Char)) idx (v g : List Char),
    g ∈ getFiles (ps.foldl (fun i p => processFile i p.1 p.2 lenient) idx) v ↔
      g ∈ getFiles idx v ∨ ∃ p ∈ ps, p.1 = g ∧ v ∈ findUrls lenient p.2
  | [], idx, v, g => by simp
  | p :: ps, idx, v, g => by
    rw [List.foldl_cons, mem_getFiles_pairFold lenient ps _ v g,
      show processFile idx p.1 p.2 lenient =
        (findUrls lenient p.2).foldl (fun i u => indexInsert i u p.1) idx from rfl,
      mem_getFiles_urlFold]
    simp only [List.mem_cons]
    constructor
    · rintro ((h | ⟨hv, rfl⟩) | ⟨q, hq, hg, hv⟩)
      · exact Or.inl h
      · exact Or.inr ⟨p, Or.inl rfl, rfl, hv⟩
      · exact Or.inr ⟨q, Or.inr hq, hg, hv⟩
    · rintro (h | ⟨q, rfl | hq, hg, hv⟩)
      · exact Or.inl (Or.inl h)
      · exact Or.inl (Or.inr ⟨hv, hg.symm⟩)
      · exact Or.inr ⟨q, hq, hg, hv⟩

theorem mem_keys_buildIndex {ps : List (List Char × List Char)} {lenient : Bool}
    {v : List Char} :
    v ∈ keys (buildIndex ps lenient) ↔ ∃ p ∈ ps, v ∈ findUrls lenient p.2 := by
  rw [buildIndex, mem_keys_pairFold]
  simp [keys]

theorem mem_getFiles_buildIndex {ps : List (List Char × List Char)} {lenient : Bool}
    {v g : List Char} :
    g ∈ getFiles (buildIndex ps lenient) v ↔
      ∃ p ∈ ps, p.1 = g ∧ v ∈ findUrls lenient p.2 := by
  rw [buildIndex, mem_getFiles_pairFold]
  simp [getFiles]

theorem keys_nodup_buildIndex (ps : List (List Char × List Char)) (lenient : Bool) :
    (keys (buildIndex ps lenient)).Nodup := by
  rw [buildIndex]
  generalize hstart : ([] : List (List Char × List (List Char))) = idx
  have h0 : (keys idx).Nodup := by simp [← hstart, keys]
  clear hstart
  induction ps generalizing idx with
  | nil => exact h0
  | cons p ps ih => exact ih _ (keys_nodup_urlFold _ _ _ h0)

theorem entries_buildIndex (ps : List (List Char × List Char)) (lenient : Bool) :
    ∀ e ∈ buildIndex ps lenient, e.2 ≠ [] ∧ e.2.Nodup := by
  rw [buildIndex]
  generalize hstart : ([] : List (List Char × List (List Char))) = idx
  have h0 : ∀ e ∈ idx, e.2 ≠ [] ∧ e.2.Nodup := by simp [← hstart]
  clear hstart
  induction ps generalizing idx with
  | nil => exact h0
  | cons p ps ih => exact ih _ (entries_urlFold _ _ _ h0)

/-! ## Facts about the occurrence-table rendering -/

theorem jsonRecords_fst_mem {idx : List (List Char × List (List Char))}
    {r : List Char × List Char} (h : r ∈ jsonRecords idx) : r.1 ∈ keys idx := by
  rw [jsonRecords, List.mem_flatMap] at h
  obtain ⟨e, he, hr⟩ := h
  obtain ⟨f, _, rfl⟩ := List.mem_map.1 hr
  exact List.mem_map.2 ⟨e, he, rfl⟩

theorem jsonRecords_chain (idx : List (List Char × List (List Char)))
    (hkeys : (keys idx).Nodup) (hnd : ∀ e ∈ idx, e.2.Nodup) :
    List.Chain' (fun r1 r2 : List Char × List Char => r1.1 = r2.1 → clLt r1.2 r2.2)
      (jsonRecords idx) := by
  induction idx with
  | nil => simp [jsonRecords]
  | cons e t ih =>
    obtain ⟨u, fs⟩ := e
    simp only [keys, List.map_cons, List.nodup_cons] at hkeys
    rw [jsonRecords, List.flatMap_cons]
    rw [List.chain'_append]
    refine ⟨?_, ?_, ?_⟩
    · rw [List.chain'_map]
      have hs : List.Chain' clLt (sortCL fs) :=
        (sortCL_sorted_lt (hnd (u, fs) (by simp))).chain'
      refine hs.imp ?_
      intro a b hab
      exact fun _ => hab
    · exact ih hkeys.2 fun e he => hnd e (List.mem_cons_of_mem _ he)
    · intro x hx y hy heq
      have hxu : x.1 = u := by
        have := List.mem_of_mem_getLast? hx
        obtain ⟨f, _, rfl⟩ := List.mem_map.1 this
        rfl
      have hyk : y.1 ∈ keys t :=
        jsonRecords_fst_mem (List.mem_of_mem_head? hy)
      rw [← heq, hxu] at hyk
      exact absurd hyk hkeys.1

theorem jsonRecords_filter (idx : List (List Char × List (List Char)))
    (hkeys : (keys idx).Nodup) (u : List Char) :
    ((jsonRecords idx).filter (fun r => r.1 == u)).map Prod.snd =
      sortCL (getFiles idx u) := by
  induction idx with
  | nil => simp [jsonRecords, getFiles, sortCL, List.insertionSort]
  | cons e t ih =>
    obtain ⟨w, fs⟩ := e
    simp only [keys, List.map_cons, List.nodup_cons] at hkeys
    rw [jsonRecords, List.flatMap_cons, List.filter_append, List.map_append,
      show (t.flatMap fun e => (sortCL e.2).map fun f => (e.1, f)) = jsonRecords t from rfl]
    by_cases hw : w = u
    · subst hw
      have h1 : ((sortCL fs).map fun f => (w, f)).filter (fun r => r.1 == w) =
          (sortCL fs).map fun f => (w, f) := by
        rw [List.filter_eq_self]
        intro r hr
        obtain ⟨f, _, rfl⟩ := List.mem_map.1 hr
        simp
      have h2 : (jsonRecords t).filter (fun r => r.1 == w) = [] := by
        rw [List.filter_eq_nil_iff]
        intro r hr hbeq
        have := jsonRecords_fst_mem hr
        rw [beq_iff_eq] at hbeq
        exact hkeys.1 (hbeq ▸ this)
      rw [h1, h2, List.map_nil, List.append_nil, List.map_map]
      rw [show (Prod.snd ∘ fun f => ((w, f) : List Char × List Char)) = id from rfl]
      rw [List.map_id]
      simp [getFiles]
    · have h1 : ((sortCL fs).map fun f => (w, f)).filter (fun r => r.1 == u) = [] := by
        rw [List.filter_eq_nil_iff]
        intro r hr hbeq
        obtain ⟨f, _, rfl⟩ := List.mem_map.1 hr
        rw [beq_iff_eq] at hbeq
        exact hw hbeq
      rw [h1, List.map_nil, List.nil_append, ih hkeys.2]
      simp [getFiles, hw]

theorem jsonRecords_length (idx : List (List Char × List (List Char))) :
    (jsonRecords idx).length = (idx.map fun e => e.2.length).sum := by
  induction idx with
  | nil => rfl
  | cons e t ih =>
    rw [jsonRecords, List.flatMap_cons, List.length_append, List.length_map, sortCL_length,
      List.map_cons, List.sum_cons]
    rw [show ((t.flatMap fun e => (sortCL e.2).map fun f => (e.1, f)): List _) =
      jsonRecords t from rfl, ih]

/-! ## Facts about the unique-list rendering -/

theorem uniqueLines_sorted {idx : List (List Char × List (List Char))}
    (h : (keys idx).Nodup) : List.Sorted clLt (uniqueLines idx) :=
  sortCL_sorted_lt h

theorem mem_uniqueLines {idx : List (List Char × List (List Char))} {u : List Char} :
    u ∈ uniqueLines idx ↔ u ∈ keys idx :=
  mem_sortCL

theorem uniqueOutput_flatMap (idx : List (List Char × List (List Char))) :
    uniqueOutput idx = (uniqueLines idx).flatMap fun u => u ++ ['\n'] := rfl

/-! ## Characterization of the directory scan -/

theorem scanFold_eq (dir : List Char) (lenient : Bool) :
    ∀ (entries : List DirEntry) (idx0 : List (List Char × List (List Char)))
      (errs0 : List (List Char)),
    entries.foldl (scanStep lenient dir) (idx0, errs0) =
      ((readableTxtPairs dir entries).foldl (fun i p => processFile i p.1 p.2 lenient) idx0,
        errs0 ++ unreadableTxtPaths dir entries)
  | [], idx0, errs0 => by simp [readableTxtPairs, unreadableTxtPaths]
  | e :: es, idx0, errs0 => by
    rw [List.foldl_cons]
    by_cases ht : isTxtName e.name
    · match hb : e.bytes with
      | some bs =>
        rw [show scanStep lenient dir (idx0, errs0) e =
            (processFile idx0 (joinPath dir e.name) (utf8DecodeIgnore bs) lenient, errs0)
          from by simp [scanStep, ht, hb]]
        rw [scanFold_eq dir lenient es _ _]
        rw [show readableTxtPairs dir (e :: es) =
            (joinPath dir e.name, utf8DecodeIgnore bs) :: readableTxtPairs dir es
          from by simp [readableTxtPairs, List.filterMap_cons, hb, ht]]
        rw [show unreadableTxtPaths dir (e :: es) = unreadableTxtPaths dir es
          from by simp [unreadableTxtPaths, List.filterMap_cons, hb]]
        rw [List.foldl_cons]
      | none =>
        rw [show scanStep lenient dir (idx0, errs0) e =
            (idx0, errs0 ++ [joinPath dir e.name]) from by simp [scanStep, ht, hb]]
        rw [scanFold_eq dir lenient es _ _]
        rw [show readableTxtPairs dir (e :: es) = readableTxtPairs dir es
          from by simp [readableTxtPairs, List.filterMap_cons, hb]]
        rw [show unreadableTxtPaths dir (e :: es) =
            joinPath dir e.name :: unreadableTxtPaths dir es
          from by simp [unreadableTxtPaths, List.filterMap_cons, hb, ht]]
        rw [List.append_assoc, List.singleton_append]
    · rw [show scanStep lenient dir (idx0, errs0) e = (idx0, errs0)
        from by simp [scanStep, ht]]
      rw [scanFold_eq dir lenient es _ _]
      rcases hb : e.bytes with _ | bs
      all_goals rw [show readableTxtPairs dir (e :: es) = readableTxtPairs dir es
          from by simp [readableTxtPairs, List.filterMap_cons, hb, ht],
        show unreadableTxtPaths dir (e :: es) = unreadableTxtPaths dir es
          from by simp [unreadableTxtPaths, List.filterMap_cons, hb, ht]]

theorem scanDirectory_eq (dir : List Char) (entries : List DirEntry) (lenient : Bool) :
    scanDirectory dir entries lenient =
      (buildIndex (readableTxtPairs dir entries) lenient, unreadableTxtPaths dir entries) := by
  rw [scanDirectory, scanFold_eq, List.nil_append, buildIndex]

/-! ## Helper facts about `takeWhile`, `take` and `drop` -/

theorem takeWhile_append_all {p : Char → Bool} {l1 : List Char} (l2 : List Char)
    (h : ∀ c ∈ l1, p c = true) :
    (l1 ++ l2).takeWhile p = l1 ++ l2.takeWhile p := by
  rw [List.takeWhile_append, if_pos]
  rw [List.takeWhile_eq_self_iff.mpr h]

theorem takeWhile_cons_false {p : Char → Bool} {c : Char} (l : List Char)
    (h : p c = false) : (c :: l).takeWhile p = [] := by
  simp [List.takeWhile_cons, h]

theorem take_of_le_takeWhile {p : Char → Bool} {l : List Char} {k : Nat}
    (h : k ≤ (l.takeWhile p).length) : l.take k = (l.takeWhile p).take k := by
  conv_lhs => rw [← List.takeWhile_append_dropWhile (p := p) (l := l)]
  rw [List.take_append_of_le_length h]

theorem take_takeWhile_len (p : Char → Bool) (l : List Char) :
    l.take (l.takeWhile p).length = l.takeWhile p := by
  rw [take_of_le_takeWhile (Nat.le_refl _), List.take_length]

theorem mem_take_takeWhile {p : Char → Bool} {l : List Char} {k : Nat}
    (h : k ≤ (l.takeWhile p).length) : ∀ c ∈ l.take k, p c = true := by
  intro c hc
  rw [take_of_le_takeWhile h] at hc
  exact List.mem_takeWhile_imp (List.take_subset _ _ hc)

/-! ## Facts about the scanning loop -/

theorem scanAux_nil (matchAt : List Char → Option Nat) (fuel : Nat) :
    scanAux matchAt fuel [] = [] := by
  cases fuel <;> rfl

theorem scanAux_whole (matchAt : List Char → Option Nat) (l : List Char)
    (hne : l ≠ []) (hm : matchAt l = some l.length) :
    scanAux matchAt l.length l = [l] := by
  match l, hne with
  | c :: rest, _ =>
    show scanAux matchAt (rest.length + 1) (c :: rest) = [c :: rest]
    rw [scanAux, hm]
    show List.take ((c :: rest).length) (c :: rest) ::
        scanAux matchAt rest.length (List.drop ((c :: rest).length) (c :: rest)) = [c :: rest]
    rw [List.take_length, List.drop_length, scanAux_nil]

theorem mem_scanAux (matchAt : List Char → Option Nat) :
    ∀ (fuel : Nat) (l m : List Char), m ∈ scanAux matchAt fuel l →
      ∃ l2 n, matchAt l2 = some n ∧ m = l2.take n
  | 0, _, m, h => by simp [scanAux] at h
  | _ + 1, [], m, h => by simp [scanAux] at h
  | fuel + 1, c :: rest, m, h => by
    rw [scanAux] at h
    rcases hm : matchAt (c :: rest) with _ | n
    · rw [hm] at h
      exact mem_scanAux matchAt fuel rest m h
    · rw [hm] at h
      rcases List.mem_cons.1 h with rfl | h2
      · exact ⟨c :: rest, n, hm, rfl⟩
      · exact mem_scanAux matchAt fuel _ m h2

/-! ## Reduction facts for the scheme alternatives

The scheme literals are concrete, so stripping them (or failing to) reduces
definitionally. -/

theorem stripCI_https_self (X : List Char) : stripCI strHttps (strHttps ++ X) = some X := rfl

theorem stripCI_https_http (X : List Char) : stripCI strHttps (strHttp ++ X) = none := rfl

theorem stripCI_https_www (X : List Char) : stripCI strHttps (strWww ++ X) = none := rfl

theorem stripCI_http_self (X : List Char) : stripCI strHttp (strHttp ++ X) = some X := rfl

theorem stripCI_http_www (X : List Char) : stripCI strHttp (strWww ++ X) = none := rfl

theorem stripCI_www_self (X : List Char) : stripCI strWww (strWww ++ X) = some X := rfl

theorem strictTry_cons_some {s l : List Char} {ss : List (List Char)} {r : List Char}
    (hstrip : stripCI s l = some r) (hne : (r.takeWhile isBodyChar).length ≠ 0) :
    strictTry (s :: ss) l = some (s.length + (r.takeWhile isBodyChar).length) := by
  simp [strictTry, hstrip, hne]

theorem strictTry_cons_none {s l : List Char} {ss : List (List Char)}
    (hstrip : stripCI s l = none) : strictTry (s :: ss) l = strictTry ss l := by
  simp [strictTry, hstrip]

theorem lenientTry_cons_some {s l : List Char} {ss : List (List Char)} {r : List Char}
    {n : Nat} (hstrip : stripCI s l = some r) (hbody : lenientBody r = some n) :
    lenientTry (s :: ss) l = some (s.length + n) := by
  simp [lenientTry, hstrip, hbody]

theorem lenientTry_cons_none {s l : List Char} {ss : List (List Char)}
    (hstrip : stripCI s l = none) : lenientTry (s :: ss) l = lenientTry ss l := by
  simp [lenientTry, hstrip]

/-! ## The strict matcher on a canonical prefixed URL -/

theorem strictMatchAt_scheme {s : List Char} (X : List Char)
    (hs : s = strHttps ∨ s = strHttp ∨ s = strWww) (hne : X ≠ [])
    (hb : ∀ c ∈ X, isBodyChar c = true) :
    strictMatchAt (s ++ X) = some (s.length + X.length) := by
  have hw : X.takeWhile isBodyChar = X := List.takeWhile_eq_self_iff.mpr hb
  have hz : (X.takeWhile isBodyChar).length ≠ 0 := by
    rw [hw]
    simpa [List.length_eq_zero] using hne
  rcases hs with rfl | rfl | rfl
  · rw [strictMatchAt, strictTry_cons_some (stripCI_https_self X) hz, hw]
  · rw [strictMatchAt, strictTry_cons_none (stripCI_https_http X),
      strictTry_cons_some (stripCI_http_self X) hz, hw]
  · rw [strictMatchAt, strictTry_cons_none (stripCI_https_www X),
      strictTry_cons_none (stripCI_http_www X),
      strictTry_cons_some (stripCI_www_self X) hz, hw]

/-! ## Reduction facts for `tldSplit` and `domBacktrack` -/

theorem tldSplit_none_head {k : Nat} {rest : List Char} {c : Char} {z : List Char}
    (h : rest.drop k = c :: z) (hc : c ≠ '.') : tldSplit k rest = none := by
  unfold tldSplit
  rw [h]
  split
  · rename_i tl heq
    injection heq with h1 _
    exact absurd h1 hc
  · rfl

theorem tldSplit_none_nil {k : Nat} {rest : List Char} (h : rest.drop k = []) :
    tldSplit k rest = none := by
  unfold tldSplit
  rw [h]

theorem tldSplit_some {k : Nat} {rest tl : List Char} (h : rest.drop k = '.' :: tl)
    (h2 : 2 ≤ min (tl.takeWhile isAlphaAZ).length 6) :
    tldSplit k rest = some (k + 1 + min (tl.takeWhile isAlphaAZ).length 6 +
      pathLen (tl.drop (min (tl.takeWhile isAlphaAZ).length 6))) := by
  unfold tldSplit
  rw [h]
  simp [h2]

theorem domBacktrack_succ_none {rest : List Char} {k : Nat}
    (h : tldSplit (k + 1) rest = none) : domBacktrack rest (k + 1) = domBacktrack rest k := by
  simp [domBacktrack, h]

theorem domBacktrack_succ_some {rest : List Char} {k n : Nat}
    (h : tldSplit (k + 1) rest = some n) : domBacktrack rest (k + 1) = some n := by
  simp [domBacktrack, h]

theorem domBacktrack_skip (rest : List Char) :
    ∀ (d k0 : Nat), (∀ i, k0 < i → i ≤ k0 + d → tldSplit i rest = none) →
      domBacktrack rest (k0 + d) = domBacktrack rest k0
  | 0, k0, _ => rfl
  | d + 1, k0, h => by
    rw [show k0 + (d + 1) = (k0 + d) + 1 from rfl,
      domBacktrack_succ_none (h _ (by omega) (by omega))]
    exact domBacktrack_skip rest d k0 fun i h1 h2 => h i h1 (by omega)

/-! ## The lenient matcher on a canonical URL body -/

theorem run_canonical {dom tld pa : List Char}
    (hdomc : ∀ c ∈ dom, isDomChar c = true)
    (htldc : ∀ c ∈ tld, isAlphaAZ c = true)
    (hpa : pa = [] ∨ ∃ pb, pa = '/' :: pb ∧ ∀ c ∈ pb, isBodyChar c = true) :
    (dom ++ '.' :: (tld ++ pa)).takeWhile isDomChar = dom ++ '.' :: tld := by
  rw [takeWhile_append_all _ hdomc,
    show ('.' :: (tld ++ pa)).takeWhile isDomChar = '.' :: (tld ++ pa).takeWhile isDomChar
      from by simp [List.takeWhile_cons, isDomChar_dot],
    takeWhile_append_all _ fun c hc => isDomChar_of_isAlphaAZ (htldc c hc)]
  rcases hpa with rfl | ⟨pb, rfl, _⟩
  · simp
  · rw [takeWhile_cons_false _ not_isDomChar_slash]
    simp

theorem alpha_run_canonical {tld pa : List Char}
    (htldc : ∀ c ∈ tld, isAlphaAZ c = true)
    (hpa : pa = [] ∨ ∃ pb, pa = '/' :: pb ∧ ∀ c ∈ pb, isBodyChar c = true) :
    (tld ++ pa).takeWhile isAlphaAZ = tld := by
  rw [takeWhile_append_all _ htldc]
  rcases hpa with rfl | ⟨pb, rfl, _⟩
  · simp
  · rw [takeWhile_cons_false _ not_isAlphaAZ_slash]
    simp

theorem pathLen_canonical {pa : List Char}
    (hpa : pa = [] ∨ ∃ pb, pa = '/' :: pb ∧ ∀ c ∈ pb, isBodyChar c = true) :
    pathLen pa = pa.length := by
  rcases hpa with rfl | ⟨pb, rfl, hb⟩
  · rfl
  · simp [pathLen, List.takeWhile_eq_self_iff.mpr hb, Nat.add_comm]

theorem tldSplit_at_dom {dom tld pa : List Char}
    (htld2 : 2 ≤ tld.length) (htld6 : tld.length ≤ 6)
    (htldc : ∀ c ∈ tld, isAlphaAZ c = true)
    (hpa : pa = [] ∨ ∃ pb, pa = '/' :: pb ∧ ∀ c ∈ pb, isBodyChar c = true) :
    tldSplit dom.length (dom ++ '.' :: (tld ++ pa)) =
      some (dom.length + 1 + tld.length + pa.length) := by
  have hmin : min ((tld ++ pa).takeWhile isAlphaAZ).length 6 = tld.length := by
    rw [alpha_run_canonical htldc hpa]
    exact Nat.min_eq_left htld6
  rw [tldSplit_some (List.drop_left dom _) (by rw [hmin]; omega), hmin, List.drop_left,
    pathLen_canonical hpa]

theorem tldSplit_fail_above {dom tld pa : List Char}
    (htldc : ∀ c ∈ tld, isAlphaAZ c = true)
    (hpa : pa = [] ∨ ∃ pb, pa = '/' :: pb ∧ ∀ c ∈ pb, isBodyChar c = true) :
    ∀ i, dom.length < i → i ≤ dom.length + 1 + tld.length →
      tldSplit i (dom ++ '.' :: (tld ++ pa)) = none := by
  intro i h1 h2
  obtain ⟨j, rfl⟩ : ∃ j, i = dom.length + 1 + j := ⟨i - dom.length - 1, by omega⟩
  have hj : j ≤ tld.length := by omega
  have hdrop : (dom ++ '.' :: (tld ++ pa)).drop (dom.length + 1 + j) = tld.drop j ++ pa := by
    rw [show dom.length + 1 + j = dom.length + (1 + j) from by omega, List.drop_append,
      show (1 + j) = j + 1 from by omega, List.drop_succ_cons,
      List.drop_append_of_le_length hj]
  rcases Nat.lt_or_ge j tld.length with hlt | hge
  · have hne : tld.drop j ≠ [] := by
      rw [ne_eq, List.drop_eq_nil_iff]
      omega
    obtain ⟨c, z, hcz⟩ := List.exists_cons_of_ne_nil hne
    have hc : c ∈ tld := List.drop_subset _ _ (hcz ▸ List.mem_cons_self c z)
    exact tldSplit_none_head (by rw [hdrop, hcz, List.cons_append])
      (isAlphaAZ_ne_dot (htldc c hc))
  · have hjeq : j = tld.length := by omega
    subst hjeq
    rw [List.drop_length, List.nil_append] at hdrop
    rcases hpa with rfl | ⟨pb, rfl, _⟩
    · exact tldSplit_none_nil hdrop
    · exact tldSplit_none_head hdrop (by decide)

theorem lenientBody_canonical {dom tld pa : List Char} (hdne : dom ≠ [])
    (hdomc : ∀ c ∈ dom, isDomChar c = true)
    (htld2 : 2 ≤ tld.length) (htld6 : tld.length ≤ 6)
    (htldc : ∀ c ∈ tld, isAlphaAZ c = true)
    (hpa : pa = [] ∨ ∃ pb, pa = '/' :: pb ∧ ∀ c ∈ pb, isBodyChar c = true) :
    lenientBody (dom ++ '.' :: (tld ++ pa)) =
      some (dom.length + 1 + tld.length + pa.length) := by
  rw [lenientBody, run_canonical hdomc htldc hpa,
    show (dom ++ '.' :: tld).length = dom.length + (tld.length + 1) from by
      simp [List.length_append],
    domBacktrack_skip _ (tld.length + 1) dom.length
      fun i hi1 hi2 => tldSplit_fail_above htldc hpa i hi1 (by omega)]
  obtain ⟨m, hm⟩ : ∃ m, dom.length = m + 1 := by
    match dom, hdne with
    | c :: ds, _ => exact ⟨ds.length, rfl⟩
  rw [hm, domBacktrack_succ_some (hm ▸ tldSplit_at_dom htld2 htld6 htldc hpa)]

theorem lenientMatchAt_scheme {s : List Char} {X : List Char}
    (hs : s = strHttps ∨ s = strHttp ∨ s = strWww) {n : Nat}
    (hbody : lenientBody X = some n) :
    lenientMatchAt (s ++ X) = some (s.length + n) := by
  rcases hs with rfl | rfl | rfl
  · rw [lenientMatchAt, lenientTry_cons_some (stripCI_https_self X) hbody]
  · rw [lenientMatchAt, lenientTry_cons_none (stripCI_https_http X),
      lenientTry_cons_some (stripCI_http_self X) hbody]
  · rw [lenientMatchAt, lenientTry_cons_none (stripCI_https_www X),
      lenientTry_cons_none (stripCI_http_www X),
      lenientTry_cons_some (stripCI_www_self X) hbody]

/-! ## Decomposition of a successful lenient match -/

theorem takeWhile_length_le (p : Char → Bool) (l : List Char) :
    (l.takeWhile p).length ≤ l.length := by
  conv_rhs => rw [← List.takeWhile_append_dropWhile (p := p) (l := l)]
  rw [List.length_append]
  omega

theorem stripCI_length : ∀ (p l r : List Char), stripCI p l = some r →
    l.length = p.length + r.length
  | [], l, r, h => by
    simp only [stripCI, Option.some.injEq] at h
    subst h
    simp
  | p :: ps, [], r, h => by simp [stripCI] at h
  | p :: ps, c :: cs, r, h => by
    simp only [stripCI] at h
    split at h
    · have := stripCI_length ps cs r h
      simp only [List.length_cons, this]
      omega
    · cases h

theorem stripCI_decomp : ∀ (p l r : List Char), stripCI p l = some r →
    l = l.take p.length ++ r ∧ stripCI p (l.take p.length) = some []
  | [], l, r, h => by
    simp only [stripCI, Option.some.injEq] at h
    subst h
    exact ⟨by simp, rfl⟩
  | p :: ps, [], r, h => by simp [stripCI] at h
  | p :: ps, c :: cs, r, h => by
    simp only [stripCI] at h
    split at h
    · rename_i hc
      obtain ⟨h1, h2⟩ := stripCI_decomp ps cs r h
      rw [show (c :: cs).take (p :: ps).length = c :: cs.take ps.length from rfl]
      constructor
      · rw [List.cons_append]
        conv_lhs => rw [h1]
      · simp only [stripCI, hc, if_true]
        exact h2
    · cases h

theorem lenientTry_inv : ∀ (ss : List (List Char)) (l : List Char) (n : Nat),
    lenientTry ss l = some n →
    lenientBody l = some n ∨
      ∃ sp ∈ ss, ∃ r, stripCI sp l = some r ∧ lenientBody r = some (n - sp.length) ∧
        sp.length ≤ n
  | [], l, n, h => Or.inl h
  | sp :: ss, l, n, h => by
    simp only [lenientTry] at h
    split at h
    · rename_i r hstrip
      split at h
      · rename_i nb hbody
        injection h with h
        right
        refine ⟨sp, List.mem_cons_self .., r, hstrip, ?_, by omega⟩
        rw [← h, Nat.add_sub_cancel_left]
        exact hbody
      · rcases lenientTry_inv ss l n h with h2 | ⟨sp2, hsp2, r2, hs, hb, hle⟩
        · exact Or.inl h2
        · exact Or.inr ⟨sp2, List.mem_cons_of_mem _ hsp2, r2, hs, hb, hle⟩
    · rcases lenientTry_inv ss l n h with h2 | ⟨sp2, hsp2, r2, hs, hb, hle⟩
      · exact Or.inl h2
      · exact Or.inr ⟨sp2, List.mem_cons_of_mem _ hsp2, r2, hs, hb, hle⟩

theorem domBacktrack_inv : ∀ (K : Nat) {rest : List Char} {n : Nat},
    domBacktrack rest K = some n → ∃ k, 1 ≤ k ∧ k ≤ K ∧ tldSplit k rest = some n
  | 0, rest, n, h => by simp [domBacktrack] at h
  | K + 1, rest, n, h => by
    rw [domBacktrack] at h
    split at h
    · rename_i n2 hsp
      injection h with h
      subst h
      exact ⟨K + 1, by omega, Nat.le_refl _, hsp⟩
    · obtain ⟨k, h1, h2, h3⟩ := domBacktrack_inv K h
      exact ⟨k, h1, by omega, h3⟩

theorem tldSplit_inv {k : Nat} {rest : List Char} {n : Nat} (h : tldSplit k rest = some n) :
    ∃ tl, rest.drop k = '.' :: tl ∧
      2 ≤ min (tl.takeWhile isAlphaAZ).length 6 ∧
      n = k + 1 + min (tl.takeWhile isAlphaAZ).length 6 +
        pathLen (tl.drop (min (tl.takeWhile isAlphaAZ).length 6)) := by
  unfold tldSplit at h
  split at h
  · rename_i tl heq
    split at h
    · rename_i h2
      injection h with h
      exact ⟨tl, heq, h2, h.symm⟩
    · cases h
  · cases h

theorem pathLen_take (w : List Char) :
    w.take (pathLen w) = [] ∨
      ∃ pb, w.take (pathLen w) = '/' :: pb ∧ ∀ c ∈ pb, isBodyChar c = true := by
  match w with
  | [] => exact Or.inl rfl
  | c :: z =>
    by_cases hc : c = '/'
    · subst hc
      right
      rw [show pathLen ('/' :: z) = 1 + (z.takeWhile isBodyChar).length from by simp [pathLen],
        show 1 + (z.takeWhile isBodyChar).length = (z.takeWhile isBodyChar).length + 1 from by
          omega,
        List.take_succ_cons, take_takeWhile_len]
      exact ⟨z.takeWhile isBodyChar, rfl, fun c hc => List.mem_takeWhile_imp hc⟩
    · left
      rw [show pathLen (c :: z) = 0 from by simp [pathLen, hc]]
      rfl

theorem lenientBody_take {r : List Char} {nb : Nat} (h : lenientBody r = some nb) :
    ∃ dom tld pa, r.take nb = dom ++ '.' :: (tld ++ pa) ∧ dom ≠ [] ∧
      (∀ c ∈ dom, isDomChar c = true) ∧ 2 ≤ tld.length ∧ tld.length ≤ 6 ∧
      (∀ c ∈ tld, isAlphaAZ c = true) ∧
      (pa = [] ∨ ∃ pb, pa = '/' :: pb ∧ ∀ c ∈ pb, isBodyChar c = true) := by
  rw [lenientBody] at h
  obtain ⟨k, hk1, hk2, hsp⟩ := domBacktrack_inv _ h
  obtain ⟨tl, hdrop, h2, hn⟩ := tldSplit_inv hsp
  have hma : min (tl.takeWhile isAlphaAZ).length 6 ≤ (tl.takeWhile isAlphaAZ).length :=
    Nat.min_le_left _ _
  have hm6 : min (tl.takeWhile isAlphaAZ).length 6 ≤ 6 := Nat.min_le_right _ _
  have htwr := takeWhile_length_le isDomChar r
  have htwt := takeWhile_length_le isAlphaAZ tl
  have htlen : (tl.take (min (tl.takeWhile isAlphaAZ).length 6)).length =
      min (tl.takeWhile isAlphaAZ).length 6 := by
    rw [List.length_take]
    omega
  refine ⟨r.take k, tl.take (min (tl.takeWhile isAlphaAZ).length 6),
    (tl.drop (min (tl.takeWhile isAlphaAZ).length 6)).take
      (pathLen (tl.drop (min (tl.takeWhile isAlphaAZ).length 6))),
    ?_, ?_, mem_take_takeWhile hk2, by omega, by omega,
    fun c hc => mem_take_takeWhile hma c hc, pathLen_take _⟩
  · subst hn
    rw [show k + 1 + min (tl.takeWhile isAlphaAZ).length 6 +
        pathLen (tl.drop (min (tl.takeWhile isAlphaAZ).length 6)) =
        k + ((min (tl.takeWhile isAlphaAZ).length 6 +
          pathLen (tl.drop (min (tl.takeWhile isAlphaAZ).length 6))) + 1) from by omega,
      List.take_add, hdrop, List.take_succ_cons, List.take_add]
  · apply List.ne_nil_of_length_pos
    rw [List.length_take]
    omega

theorem lenientMatchAt_shape {l : List Char} {n : Nat} (h : lenientMatchAt l = some n) :
    ∃ sch dom tld pa, l.take n = sch ++ (dom ++ '.' :: (tld ++ pa)) ∧
      (sch = [] ∨ ∃ sp ∈ [strHttps, strHttp, strWww, strFtp], stripCI sp sch = some []) ∧
      dom ≠ [] ∧ (∀ c ∈ dom, isDomChar c = true) ∧ 2 ≤ tld.length ∧ tld.length ≤ 6 ∧
      (∀ c ∈ tld, isAlphaAZ c = true) ∧
      (pa = [] ∨ ∃ pb, pa = '/' :: pb ∧ ∀ c ∈ pb, isBodyChar c = true) := by
  rw [lenientMatchAt] at h
  rcases lenientTry_inv _ _ _ h with hbody | ⟨sp, hsp, r, hstrip, hbody, hle⟩
  · obtain ⟨dom, tld, pa, heq, hrest⟩ := lenientBody_take hbody
    exact ⟨[], dom, tld, pa, by rw [List.nil_append]; exact heq, Or.inl rfl, hrest⟩
  · obtain ⟨hdec, hscheme⟩ := stripCI_decomp sp l r hstrip
    have hlen := stripCI_length sp l r hstrip
    have htk : (l.take sp.length).length = sp.length := by
      rw [List.length_take]
      omega
    have hsplit : l.take n = l.take sp.length ++ r.take (n - sp.length) := by
      conv_lhs => rw [hdec]
      rw [List.take_append_eq_append_take, htk,
        List.take_of_length_le (show (List.take sp.length l).length ≤ n from by
          rw [htk]; exact hle)]
    obtain ⟨dom, tld, pa, heq, hrest⟩ := lenientBody_take hbody
    exact ⟨l.take sp.length, dom, tld, pa, by rw [hsplit, heq], Or.inr ⟨sp, hsp, hscheme⟩,
      hrest⟩

/-! ## Counting records -/

theorem sum_lengths_bound : ∀ (idx : List (List Char × List (List Char))),
    (∀ e ∈ idx, e.2 ≠ []) →
    idx.length ≤ (idx.map fun e => e.2.length).sum ∧
      ((idx.map fun e => e.2.length).sum = idx.length ↔ ∀ e ∈ idx, e.2.length = 1)
  | [], _ => by simp
  | e :: t, h => by
    have h1 : 1 ≤ e.2.length := by
      have := h e (by simp)
      have := List.length_pos.mpr this
      omega
    obtain ⟨ihle, ihiff⟩ := sum_lengths_bound t fun e2 he2 => h e2 (by simp [he2])
    simp only [List.map_cons, List.sum_cons, List.length_cons]
    refine ⟨by omega, ?_, ?_⟩
    · intro hsum e2 he2
      rcases List.mem_cons.1 he2 with rfl | he2
      · omega
      · have hts : (t.map fun e => e.2.length).sum = t.length := by omega
        exact ihiff.1 hts e2 he2
    · intro hall
      have he1 : e.2.length = 1 := hall e (by simp)
      have hts := ihiff.2 fun e2 he2 => hall e2 (by simp [he2])
      omega

/-! ## Decoding around one stray byte -/

theorem utf8Aux_cons_ascii {fuel : Nat} {x : Nat} {l : List Nat} (hx : x < 128) :
    utf8DecodeAux (fuel + 1) (x :: l) = Char.ofNat x :: utf8DecodeAux fuel l := by
  rw [utf8DecodeAux.eq_def]
  simp [hx]

theorem utf8Aux_cons_skip {fuel : Nat} {b : Nat} {l : List Nat} (h1 : ¬ b < 128)
    (h2 : b < 194) : utf8DecodeAux (fuel + 1) (b :: l) = utf8DecodeAux fuel l := by
  rw [utf8DecodeAux.eq_def]
  simp [h1, h2]

theorem utf8Aux_ascii : ∀ (fuel : Nat) (l : List Nat), l.length ≤ fuel →
    (∀ x ∈ l, x < 128) → utf8DecodeAux fuel l = l.map Char.ofNat
  | fuel, [], _, _ => by cases fuel <;> rfl
  | 0, x :: l, h, _ => by simp at h
  | fuel + 1, x :: l, h, ha => by
    rw [utf8Aux_cons_ascii (ha x (by simp)),
      utf8Aux_ascii fuel l (by simpa using h) fun y hy => ha y (by simp [hy])]
    rfl

theorem utf8Aux_skip : ∀ (fuel : Nat) (pre : List Nat) (b : Nat) (suf : List Nat),
    (pre ++ b :: suf).length ≤ fuel → (∀ x ∈ pre, x < 128) → 128 ≤ b → b < 194 →
    (∀ x ∈ suf, x < 128) →
    utf8DecodeAux fuel (pre ++ b :: suf) = (pre ++ suf).map Char.ofNat
  | 0, pre, b, suf, h, _, _, _, _ => by simp [List.length_append] at h
  | fuel + 1, [], b, suf, h, _, hb1, hb2, hsuf => by
    rw [List.nil_append, utf8Aux_cons_skip (by omega) hb2,
      utf8Aux_ascii fuel suf (by simpa using h) hsuf, List.nil_append]
  | fuel + 1, x :: pre, b, suf, h, hpre, hb1, hb2, hsuf => by
    rw [List.cons_append, utf8Aux_cons_ascii (hpre x (by simp)),
      utf8Aux_skip fuel pre b suf (by
        simp only [List.length_cons, List.length_append] at h ⊢
        omega)
        (fun y hy => hpre y (by simp [hy])) hb1 hb2 hsuf]
    simp

theorem utf8_ignore_skip (pre : List Nat) (b : Nat) (suf : List Nat)
    (hpre : ∀ x ∈ pre, x < 128) (hb1 : 128 ≤ b) (hb2 : b < 194)
    (hsuf : ∀ x ∈ suf, x < 128) :
    utf8DecodeIgnore (pre ++ b :: suf) = (pre ++ suf).map Char.ofNat :=
  utf8Aux_skip _ _ _ _ (Nat.le_refl _) hpre hb1 hb2 hsuf

/-! ## The case-insensitive suffix test -/

theorem lowerEndsWith_iff (s suffix0 : List Char) :
    lowerEndsWith s suffix0 = true ↔ ∃ p, s.map Char.toLower = p ++ suffix0 := by
  rw [lowerEndsWith, Bool.and_eq_true, decide_eq_true_eq]
  constructor
  · rintro ⟨hlen, hdrop⟩
    rw [beq_iff_eq] at hdrop
    refine ⟨(s.map Char.toLower).take (s.length - suffix0.length), ?_⟩
    conv_lhs => rw [← List.take_append_drop (s.length - suffix0.length) (s.map Char.toLower)]
    rw [hdrop]
  · rintro ⟨p, hp⟩
    have hlen : (s.map Char.toLower).length = s.length := List.length_map ..
    have hplen : s.length = p.length + suffix0.length := by
      rw [← hlen, hp, List.length_append]
    refine ⟨by omega, ?_⟩
    rw [beq_iff_eq, hp, show s.length - suffix0.length = p.length from by omega,
      List.drop_left]

/-! # The claims -/

set_option maxRecDepth 8000

/-- C1, counterexample: on a single file whose text mentions `http://b.com`
before `http://a.com`, the occurrence table lists the `http://b.com` record
first, so the table is not sorted by URL ascending as the claim states. -/
theorem c1_occurrence_table_not_sorted_by_url :
    jsonRecords (buildIndex [("texts/f.txt".data, "http://b.com http://a.com".data)] false) =
      [("http://b.com".data, "texts/f.txt".data),
       ("http://a.com".data, "texts/f.txt".data)] ∧
    ¬ List.Sorted recordLe
      (jsonRecords (buildIndex [("texts/f.txt".data, "http://b.com http://a.com".data)]
        false)) := by
  constructor
  · decide
  · decide

/-- C1, amended: rendering in occurrence-table shape emits the records
grouped by URL in first-occurrence (dict-insertion) order -- not sorted by
URL -- with the files strictly ascending within each URL: consecutive
records sharing a URL have strictly increasing files, and for every URL the
files listed with it are exactly its file set in ascending order. -/
theorem c1_occurrence_table_grouped (ps : List (List Char × List Char)) (lenient : Bool) :
    List.Chain' (fun r1 r2 : List Char × List Char => r1.1 = r2.1 → clLt r1.2 r2.2)
      (jsonRecords (buildIndex ps lenient)) ∧
    ∀ u, ((jsonRecords (buildIndex ps lenient)).filter fun r => r.1 == u).map Prod.snd =
      sortCL (getFiles (buildIndex ps lenient) u) :=
  ⟨jsonRecords_chain _ (keys_nodup_buildIndex ps lenient)
      fun e he => (entries_buildIndex ps lenient e he).2,
    fun u => jsonRecords_filter _ (keys_nodup_buildIndex ps lenient) u⟩

/-- C2, counterexample: on the text `http://a.com.` -- a single URL-like
token with an explicit `http://` scheme -- the strict matcher yields
`http://a.com.` (trailing dot included) while the lenient matcher yields
`http://a.com`, so the two match sets differ. -/
theorem c2_strict_lenient_differ_on_prefixed_url :
    strictFindall "http://a.com.".data = ["http://a.com.".data] ∧
    lenientFindall "http://a.com.".data = ["http://a.com".data] ∧
    strictFindall "http://a.com.".data ≠ lenientFindall "http://a.com.".data := by
  refine ⟨by decide, by decide, by decide⟩

/-- C2, amended: the strict and lenient matchers yield the same (singleton)
match set on a text that is exactly one URL of the canonical shape: an
explicit `http://`, `https://` or `www.` scheme, a non-empty domain over
`[A-Za-z0-9.-]`, a dot, a top-level label of 2 to 6 letters, and an optional
`/`-path over the excluded-character set. -/
theorem c2_strict_lenient_agree_on_canonical_urls
    (s dom tld pa : List Char)
    (hs : s = strHttps ∨ s = strHttp ∨ s = strWww)
    (hdne : dom ≠ []) (hdomc : ∀ c ∈ dom, isDomChar c = true)
    (htld2 : 2 ≤ tld.length) (htld6 : tld.length ≤ 6)
    (htldc : ∀ c ∈ tld, isAlphaAZ c = true)
    (hpa : pa = [] ∨ ∃ pb, pa = '/' :: pb ∧ ∀ c ∈ pb, isBodyChar c = true) :
    strictFindall (s ++ (dom ++ '.' :: (tld ++ pa))) =
      lenientFindall (s ++ (dom ++ '.' :: (tld ++ pa))) ∧
    strictFindall (s ++ (dom ++ '.' :: (tld ++ pa))) =
      [s ++ (dom ++ '.' :: (tld ++ pa))] := by
  have hXbody : ∀ c ∈ dom ++ '.' :: (tld ++ pa), isBodyChar c = true := by
    intro c hc
    rcases List.mem_append.1 hc with hc | hc
    · exact isBodyChar_of_isDomChar (hdomc c hc)
    · rcases List.mem_cons.1 hc with rfl | hc
      · decide
      · rcases List.mem_append.1 hc with hc | hc
        · exact isBodyChar_of_isDomChar (isDomChar_of_isAlphaAZ (htldc c hc))
        · rcases hpa with rfl | ⟨pb, rfl, hpb⟩
          · simp at hc
          · rcases List.mem_cons.1 hc with rfl | hc
            · decide
            · exact hpb c hc
  have hXlen : (dom ++ '.' :: (tld ++ pa)).length =
      dom.length + 1 + tld.length + pa.length := by
    simp only [List.length_append, List.length_cons]
    omega
  have hXne : dom ++ '.' :: (tld ++ pa) ≠ [] := by
    apply List.ne_nil_of_length_pos
    rw [hXlen]
    omega
  have hne2 : s ++ (dom ++ '.' :: (tld ++ pa)) ≠ [] := by
    apply List.ne_nil_of_length_pos
    rw [List.length_append, hXlen]
    omega
  have hstrict : strictMatchAt (s ++ (dom ++ '.' :: (tld ++ pa))) =
      some (s ++ (dom ++ '.' :: (tld ++ pa))).length := by
    rw [strictMatchAt_scheme _ hs hXne hXbody]
    congr 1
    simp only [List.length_append, List.length_cons]
    try omega
  have hlenient : lenientMatchAt (s ++ (dom ++ '.' :: (tld ++ pa))) =
      some (s ++ (dom ++ '.' :: (tld ++ pa))).length := by
    rw [lenientMatchAt_scheme hs (lenientBody_canonical hdne hdomc htld2 htld6 htldc hpa)]
    congr 1
    simp only [List.length_append, List.length_cons]
    try omega
  constructor
  · rw [strictFindall, lenientFindall, scanAux_whole _ _ hne2 hstrict,
      scanAux_whole _ _ hne2 hlenient]
  · rw [strictFindall, scanAux_whole _ _ hne2 hstrict]

/-- C2, witness: the amended claim applied to the concrete canonical URL
`http://a.com/x`. -/
theorem c2_strict_lenient_agree_on_canonical_urls_witness :
    strictFindall "http://a.com/x".data = lenientFindall "http://a.com/x".data ∧
    strictFindall "http://a.com/x".data = ["http://a.com/x".data] := by
  have heq : strHttp ++ ("a".data ++ '.' :: ("com".data ++ "/x".data)) =
      "http://a.com/x".data := by decide
  have h := c2_strict_lenient_agree_on_canonical_urls strHttp "a".data "com".data "/x".data
    (Or.inr (Or.inl rfl)) (by decide) (by decide) (by decide) (by decide) (by decide)
    (Or.inr ⟨"x".data, by decide, by decide⟩)
  rw [heq] at h
  exact h

/-- C3: the index built from any sequence of (file identifier, content)
pairs with either pattern satisfies the claimed invariants: a URL is a key
iff the pattern matched it in at least one content; every key's file set is
non-empty; and a file identifier occurs at most once per key. -/
theorem c3_index_invariants (ps : List (List Char × List Char)) (lenient : Bool) :
    (∀ u, u ∈ keys (buildIndex ps lenient) ↔ ∃ p ∈ ps, u ∈ findUrls lenient p.2) ∧
    (∀ e ∈ buildIndex ps lenient, e.2 ≠ []) ∧
    (∀ e ∈ buildIndex ps lenient, e.2.Nodup) :=
  ⟨fun _ => mem_keys_buildIndex, fun e he => (entries_buildIndex ps lenient e he).1,
    fun e he => (entries_buildIndex ps lenient e he).2⟩

/-- C4: for every occurrence index (duplicate-free keys, as the dict
guarantees), the unique-list shape renders each distinct URL exactly once in
strictly ascending code-point order, and the output text is the
concatenation of the sorted lines each terminated -- the last included --
by a newline. -/
theorem c4_unique_list_rendering (idx : List (List Char × List (List Char)))
    (hnd : (keys idx).Nodup) :
    List.Sorted clLt (uniqueLines idx) ∧
    (∀ u, u ∈ uniqueLines idx ↔ u ∈ keys idx) ∧
    uniqueOutput idx = (uniqueLines idx).flatMap fun u => u ++ ['\n'] :=
  ⟨uniqueLines_sorted hnd, fun _ => mem_uniqueLines, uniqueOutput_flatMap idx⟩

/-- C4, witness: the unique-list rendering claim at a concrete two-key
index. -/
theorem c4_unique_list_rendering_witness :
    List.Sorted clLt (uniqueLines [("b".data, ["f".data]), ("a".data, ["g".data])]) ∧
    (∀ u, u ∈ uniqueLines [("b".data, ["f".data]), ("a".data, ["g".data])] ↔
      u ∈ keys [("b".data, ["f".data]), ("a".data, ["g".data])]) ∧
    uniqueOutput [("b".data, ["f".data]), ("a".data, ["g".data])] =
      (uniqueLines [("b".data, ["f".data]), ("a".data, ["g".data])]).flatMap
        fun u => u ++ ['\n'] :=
  c4_unique_list_rendering [("b".data, ["f".data]), ("a".data, ["g".data])] (by decide)

/-- C5: for every occurrence index with non-empty file sets (as the dict
maintains), the occurrence-table record count is at least the distinct-URL
count, with equality exactly when every URL's file set has one element. -/
theorem c5_count_relation (idx : List (List Char × List (List Char)))
    (hne : ∀ e ∈ idx, e.2 ≠ []) :
    uniqueCount idx ≤ recordCount idx ∧
    (recordCount idx = uniqueCount idx ↔ ∀ e ∈ idx, e.2.length = 1) := by
  rw [recordCount, jsonRecords_length, uniqueCount, keys, List.length_map]
  exact sum_lengths_bound idx hne

/-- C5, witness: the count relation at a concrete index with two URLs over
three records, where the counts differ. -/
theorem c5_count_relation_witness :
    uniqueCount [("a".data, ["f".data]), ("b".data, ["f".data, "g".data])] ≤
      recordCount [("a".data, ["f".data]), ("b".data, ["f".data, "g".data])] ∧
    (recordCount [("a".data, ["f".data]), ("b".data, ["f".data, "g".data])] =
        uniqueCount [("a".data, ["f".data]), ("b".data, ["f".data, "g".data])] ↔
      ∀ e ∈ [(("a".data : List Char), (["f".data] : List (List Char))),
          ("b".data, ["f".data, "g".data])], e.2.length = 1) :=
  c5_count_relation [("a".data, ["f".data]), ("b".data, ["f".data, "g".data])] (by decide)

/-- C6, counterexample: the same two files processed in the two orders give
occurrence tables whose rendered JSON bytes differ (the record order follows
dict insertion order), refuting byte-identical output under reordering. -/
theorem c6_occurrence_table_depends_on_order :
    [("f1".data, "http://x.com".data), ("f2".data, "http://y.com".data)].Perm
      [("f2".data, "http://y.com".data), ("f1".data, "http://x.com".data)] ∧
    jsonOutput (buildIndex
        [("f1".data, "http://x.com".data), ("f2".data, "http://y.com".data)] false) ≠
      jsonOutput (buildIndex
        [("f2".data, "http://y.com".data), ("f1".data, "http://x.com".data)] false) := by
  constructor
  · exact List.Perm.swap _ _ _
  · decide

/-- C6, amended: two runs on identical input are byte-identical (the
extraction is a pure function of the pair sequence); across two processing
orders of the same pairs the index contents are equal as a mapping (same
keys, same file-set membership) and the unique-list output is byte-identical,
but the occurrence-table record order may differ. -/
theorem c6_index_order_invariance (ps1 ps2 : List (List Char × List Char))
    (lenient : Bool) (hperm : ps1.Perm ps2) :
    (∀ u, u ∈ keys (buildIndex ps1 lenient) ↔ u ∈ keys (buildIndex ps2 lenient)) ∧
    (∀ u f, f ∈ getFiles (buildIndex ps1 lenient) u ↔
      f ∈ getFiles (buildIndex ps2 lenient) u) ∧
    uniqueOutput (buildIndex ps1 lenient) = uniqueOutput (buildIndex ps2 lenient) := by
  have hk : ∀ u, u ∈ keys (buildIndex ps1 lenient) ↔ u ∈ keys (buildIndex ps2 lenient) := by
    intro u
    rw [mem_keys_buildIndex, mem_keys_buildIndex]
    constructor
    · rintro ⟨p, hp, h⟩
      exact ⟨p, hperm.subset hp, h⟩
    · rintro ⟨p, hp, h⟩
      exact ⟨p, hperm.symm.subset hp, h⟩
  refine ⟨hk, ?_, ?_⟩
  · intro u f
    rw [mem_getFiles_buildIndex, mem_getFiles_buildIndex]
    constructor
    · rintro ⟨p, hp, h1, h2⟩
      exact ⟨p, hperm.subset hp, h1, h2⟩
    · rintro ⟨p, hp, h1, h2⟩
      exact ⟨p, hperm.symm.subset hp, h1, h2⟩
  · have hperm2 : (keys (buildIndex ps1 lenient)).Perm (keys (buildIndex ps2 lenient)) :=
      (List.perm_ext_iff_of_nodup (keys_nodup_buildIndex ps1 lenient)
        (keys_nodup_buildIndex ps2 lenient)).2 hk
    rw [uniqueOutput_flatMap, uniqueOutput_flatMap, uniqueLines, uniqueLines,
      sortCL_eq_of_perm hperm2]

/-- C6, witness: the amended order-invariance applied to the two concrete
processing orders of the counterexample input. -/
theorem c6_index_order_invariance_witness :
    (∀ u, u ∈ keys (buildIndex
        [("f1".data, "http://x.com".data), ("f2".data, "http://y.com".data)] false) ↔
      u ∈ keys (buildIndex
        [("f2".data, "http://y.com".data), ("f1".data, "http://x.com".data)] false)) ∧
    (∀ u f, f ∈ getFiles (buildIndex
        [("f1".data, "http://x.com".data), ("f2".data, "http://y.com".data)] false) u ↔
      f ∈ getFiles (buildIndex
        [("f2".data, "http://y.com".data), ("f1".data, "http://x.com".data)] false) u) ∧
    uniqueOutput (buildIndex
        [("f1".data, "http://x.com".data), ("f2".data, "http://y.com".data)] false) =
      uniqueOutput (buildIndex
        [("f2".data, "http://y.com".data), ("f1".data, "http://x.com".data)] false) :=
  c6_index_order_invariance _ _ false (List.Perm.swap _ _ _)

/-- C7: an `OSError` while reading one `.txt` file only puts its path in the
reported diagnostics; the scan continues and the final index is exactly the
one built from the readable `.txt` files. -/
theorem c7_read_errors_reported_and_skipped (dir : List Char) (entries : List DirEntry)
    (lenient : Bool) :
    scanDirectory dir entries lenient =
      (buildIndex (readableTxtPairs dir entries) lenient,
        unreadableTxtPaths dir entries) :=
  scanDirectory_eq dir entries lenient

/-- C8, counterexample: the lenient matcher matches `.ab.cd` whole, whose
domain starts with a dot and therefore has no decomposition into non-empty
labels each followed by a dot, so the match falls outside the shape the
claim describes. -/
theorem c8_lenient_match_outside_spec_shape :
    lenientFindall ".ab.cd".data = [".ab.cd".data] ∧
    specLenientShape ".ab.cd".data = false := by
  constructor
  · decide
  · decide

/-- C8, amended: every lenient match is an optional case-insensitive
`http://`, `https://`, `www.` or `ftp://` scheme, then a non-empty run over
`[A-Za-z0-9.-]` (dots allowed anywhere, so labels may be empty), then a dot
and a top-level label of 2 to 6 letters, then an optional path starting
with `/` over the excluded-character set. -/
theorem c8_lenient_match_shape (t m : List Char) (hm : m ∈ lenientFindall t) :
    ∃ sch dom tld pa, m = sch ++ (dom ++ '.' :: (tld ++ pa)) ∧
      (sch = [] ∨ ∃ sp ∈ [strHttps, strHttp, strWww, strFtp], stripCI sp sch = some []) ∧
      dom ≠ [] ∧ (∀ c ∈ dom, isDomChar c = true) ∧
      2 ≤ tld.length ∧ tld.length ≤ 6 ∧ (∀ c ∈ tld, isAlphaAZ c = true) ∧
      (pa = [] ∨ ∃ pb, pa = '/' :: pb ∧ ∀ c ∈ pb, isBodyChar c = true) := by
  obtain ⟨l2, n, hmt, rfl⟩ := mem_scanAux _ _ _ _ hm
  exact lenientMatchAt_shape hmt

/-- C8, witness: the amended shape claim applied to the match of
`www.ab` (where the backtracking drops the scheme and reads `www` as the
domain). -/
theorem c8_lenient_match_shape_witness :
    "www.ab".data ∈ lenientFindall "www.ab".data ∧
    ∃ sch dom tld pa, "www.ab".data = sch ++ (dom ++ '.' :: (tld ++ pa)) ∧
      (sch = [] ∨ ∃ sp ∈ [strHttps, strHttp, strWww, strFtp], stripCI sp sch = some []) ∧
      dom ≠ [] ∧ (∀ c ∈ dom, isDomChar c = true) ∧
      2 ≤ tld.length ∧ tld.length ≤ 6 ∧ (∀ c ∈ tld, isAlphaAZ c = true) ∧
      (pa = [] ∨ ∃ pb, pa = '/' :: pb ∧ ∀ c ∈ pb, isBodyChar c = true) :=
  ⟨by decide, c8_lenient_match_shape "www.ab".data "www.ab".data (by decide)⟩

/-- C9, counterexample: with `errors="ignore"` the malformed byte 0xC3 in
`A <0xC3> B` is dropped, not replaced: the decoded content is `AB` and
contains no U+FFFD replacement character. -/
theorem c9_malformed_bytes_dropped_not_replaced :
    utf8DecodeIgnore [65, 195, 66] = "AB".data ∧
    '�' ∉ utf8DecodeIgnore [65, 195, 66] ∧
    utf8DecodeIgnore [65, 195, 66] ≠ ['A', '�', 'B'] := by
  refine ⟨by decide, by decide, by decide⟩

/-- C9, amended: a file whose bytes contain a malformed byte (a stray
continuation byte or invalid lead 0x80..0xC1) between ASCII runs is still
read: the malformed byte is dropped from the decoded content and the file
contributes the matches of the remaining text to the index. -/
theorem c9_malformed_byte_read_recovers (pre suf : List Nat) (b : Nat)
    (hpre : ∀ x ∈ pre, x < 128) (hsuf : ∀ x ∈ suf, x < 128)
    (hb1 : 128 ≤ b) (hb2 : b < 194)
    (dir : List Char) (e : DirEntry) (hname : isTxtName e.name = true)
    (hbytes : e.bytes = some (pre ++ b :: suf)) (lenient : Bool) :
    utf8DecodeIgnore (pre ++ b :: suf) = (pre ++ suf).map Char.ofNat ∧
    scanDirectory dir [e] lenient =
      (buildIndex [(joinPath dir e.name, (pre ++ suf).map Char.ofNat)] lenient, []) := by
  have hdec := utf8_ignore_skip pre b suf hpre hb1 hb2 hsuf
  refine ⟨hdec, ?_⟩
  rw [scanDirectory_eq,
    show readableTxtPairs dir [e] =
        [(joinPath dir e.name, utf8DecodeIgnore (pre ++ b :: suf))] from by
      simp [readableTxtPairs, List.filterMap_cons, hbytes, hname],
    hdec,
    show unreadableTxtPaths dir [e] = [] from by
      simp [unreadableTxtPaths, List.filterMap_cons, hbytes]]

/-- C9, witness: the recovery claim at the concrete bytes `h <0x80> i` (a
stray continuation byte) in a readable `.txt` entry. -/
theorem c9_malformed_byte_read_recovers_witness :
    utf8DecodeIgnore ([104] ++ 128 :: [105]) = ([104] ++ [105]).map Char.ofNat ∧
    scanDirectory "d".data [⟨"a.txt".data, some ([104] ++ 128 :: [105])⟩] false =
      (buildIndex [(joinPath "d".data "a.txt".data, ([104] ++ [105]).map Char.ofNat)]
        false, []) :=
  c9_malformed_byte_read_recovers [104] [105] 128 (by decide) (by decide) (by decide)
    (by decide) "d".data ⟨"a.txt".data, some ([104] ++ 128 :: [105])⟩ (by decide) rfl false

/-- C10: both suffix checks are case-insensitive: a name passes the scan
filter iff its lowercased form ends in `.txt` (so `DOC.TXT` passes), the
JSON shape is selected iff the lowercased output name ends in `.json` (so
`out.JSON` selects it), and every other output name selects the unique-list
shape; a non-`.txt` entry is not scanned at all. -/
theorem c10_suffix_dispatch :
    (∀ nm : List Char, isTxtName nm = true ↔ ∃ p, nm.map Char.toLower = p ++ ".txt".data) ∧
    (∀ nm : List Char, selectJson nm = true ↔
      ∃ p, nm.map Char.toLower = p ++ ".json".data) ∧
    isTxtName "DOC.TXT".data = true ∧
    selectJson "out.JSON".data = true ∧
    selectJson "out.txt".data = false ∧
    (∀ idx nm, selectJson nm = false → outputFor idx nm = uniqueOutput idx) ∧
    (∀ idx nm, selectJson nm = true → outputFor idx nm = jsonOutput idx) ∧
    (∀ dir e lenient, isTxtName e.name = false →
      scanDirectory dir [e] lenient = ([], [])) := by
  refine ⟨fun nm => lowerEndsWith_iff nm _, fun nm => lowerEndsWith_iff nm _, by decide,
    by decide, by decide, ?_, ?_, ?_⟩
  · intro idx nm h
    rw [outputFor, if_neg (by simp [h])]
  · intro idx nm h
    rw [outputFor, if_pos h]
  · intro dir e lenient h
    simp [scanDirectory, scanStep, h]

/-- C10, witness: the suffix-dispatch claim evaluated at the concrete names
`DOC.TXT` and `out.JSON`. -/
theorem c10_suffix_dispatch_witness :
    isTxtName "DOC.TXT".data = true ∧ selectJson "out.JSON".data = true :=
  ⟨c10_suffix_dispatch.2.2.1, c10_suffix_dispatch.2.2.2.1⟩

end UrlExtract